import Mathlib

set_option maxHeartbeats 1000000

deriving instance DecidableEq for Except

/-!
Formal model of the openNCEM core (readers, EMD writer, radial profile,
local maxima, distortion fit, multicorr, ring-diffraction pipeline).

No Python source modules are present in this excerpt of the repository
(only documentation); every definition below is therefore modelled from
the specification's component descriptions, faithful to its words.
-/

/-- Modelled from the spec: metadata values are scalar, string or array
values (§3 Metadata Mapping). The Python module is missing from the
excerpt. -/
inductive MetaValue : Type
  | num (n : ℤ)
  | str (s : String)
  | arr (xs : List ℤ)
  deriving DecidableEq, Repr

/-- Modelled from the spec: a nested key-value structure with string keys
(§3 Metadata Mapping), flattened here to an association list. -/
abbrev Metadata : Type := List (String × MetaValue)

/-- Modelled from the spec: a Dataset is an n-dimensional numeric array
with explicit per-axis physical scales (§3 Dataset); pixels are kept in
their native integral bit pattern (§4.2: values are not rescaled). The
array is stored flattened together with its shape, and each axis carries
a coordinate vector and a unit string (§6 EMD layout). -/
structure Dataset : Type where
  shape : List ℕ
  data : List ℤ
  dims : List (List ℚ × String)
  deriving DecidableEq, Repr

/-- Modelled from the spec: well-formedness of a Dataset — the axis-scale
count equals the array dimensionality and the flat data length matches
the shape (§3 Dataset invariant). -/
def Dataset.wf (d : Dataset) : Prop :=
  d.dims.length = d.shape.length ∧ d.data.length = d.shape.prod

instance (d : Dataset) : Decidable d.wf := by
  unfold Dataset.wf; infer_instance

/-- Modelled from the spec: the error taxonomy of §7. -/
inductive ReadError : Type
  | unsupportedFormat
  | corruptFile
  | truncatedFile
  | versionUnsupported
  deriving DecidableEq, Repr

/-- Modelled from the spec: the single write-side failure kind of §7. -/
inductive WriteError : Type
  | writeFailed
  deriving DecidableEq, Repr

/-- Modelled from the spec: non-convergence failure of the distortion-fit
optimizer (§4.6, §7 FitDivergedError). -/
inductive FitError : Type
  | fitDiverged
  deriving DecidableEq, Repr

/-- Modelled from the spec: a non-linear least-squares fit problem (§4.6).
The optimizer's update step and its convergence test are abstracted as
functions of the state, since the missing module only documents the loop
contract (bounded iteration count, divergence error). -/
structure FitProblem (α : Type) : Type where
  step : α → α
  converged : α → Bool

/-- Modelled from the spec: the bounded optimizer loop of §4.6 — iterate
the step at most `fuel` more times, counting iterations actually used,
and fail with `FitDivergedError` when the convergence test never holds
within the bound. -/
def lsqLoop {α : Type} (P : FitProblem α) : ℕ → ℕ → α → Except FitError (α × ℕ)
  | 0, used, x => if P.converged x then .ok (x, used) else .error .fitDiverged
  | fuel + 1, used, x =>
      if P.converged x then .ok (x, used)
      else lsqLoop P fuel (used + 1) (P.step x)

/-- Modelled from the spec: the Distortion Correction fit driver (§4.6) —
runs the non-linear least-squares optimizer from an initial guess with a
bounded iteration count. -/
def distortionFit {α : Type} (P : FitProblem α) (maxIter : ℕ) (x0 : α) :
    Except FitError (α × ℕ) :=
  lsqLoop P maxIter 0 x0

/-- Modelled from the spec: one EMD top-level group per dataset, holding
an n-dimensional array node, one 1D coordinate array per axis, and a
metadata group of attributes (§4.3, §6). -/
structure EMDNode : Type where
  name : String
  shape : List ℕ
  array : List ℤ
  dims : List (List ℚ × String)
  meta : Metadata
  deriving DecidableEq, Repr

/-- Modelled from the spec: an EMD/HDF5 container is a sequence of
top-level dataset groups (§6). -/
structure EMDContainer : Type where
  nodes : List EMDNode
  deriving DecidableEq, Repr

/-- Modelled from the spec: parsed content of a SER file — series shape,
raw pixel values, per-axis calibration, optional EMI sidecar metadata
(§6). -/
structure SerContent : Type where
  shape : List ℕ
  values : List ℤ
  pixelScales : List ℚ
  emiMeta : Metadata
  deriving DecidableEq, Repr

/-- Modelled from the spec: parsed content of a DM3/DM4 file — shape,
pixel values, per-axis calibration from the tag tree, remaining tags
(§4.2, §6). -/
structure DMContent : Type where
  shape : List ℕ
  values : List ℤ
  scales : List ℚ
  tags : Metadata
  deriving DecidableEq, Repr

/-- Modelled from the spec: an on-disk file as seen by the dispatcher.
Which constructor applies is determined by the file's own
signature bytes, never by a user declaration (§4.1); a file whose
signature matches no known format is `unknown`. -/
inductive RawFile : Type
  | hdf5 (c : EMDContainer)
  | ser (c : SerContent)
  | dm (c : DMContent)
  | unknown (ext : String) (contents : List ℕ)
  deriving DecidableEq, Repr

/-- Modelled from the spec: the spacing of an axis coordinate vector,
used to surface a per-axis pixel size (§3: per-axis physical scale). -/
def dimSpacing (v : List ℚ) : ℚ :=
  match v with
  | a :: b :: _ => b - a
  | _ => 1

/-- Modelled from the spec: the per-axis calibration surfaced to callers
under the fixed `pixelSize` key (docs/index.rst usage example). -/
def pixelSizeOf (d : Dataset) : List ℚ :=
  d.dims.map (fun ax => dimSpacing ax.1)

/-- Modelled from the spec: EMD reader — parses the first top-level
group of the container; a container with no group, or whose array node
is inconsistent with its declared shape or axis count, is structurally
invalid (`CorruptFileError`, §4.1/§7). -/
def emdParse (c : EMDContainer) : Except ReadError (Dataset × Metadata) :=
  match c.nodes with
  | [] => .error .corruptFile
  | node :: _ =>
      if node.array.length = node.shape.prod ∧ node.dims.length = node.shape.length then
        .ok (⟨node.shape, node.array, node.dims⟩, node.meta)
      else .error .corruptFile

/-- Modelled from the spec: coordinate vectors reconstructed from a flat
per-axis scale list, one vector per axis with that axis's spacing. -/
def dimsOfScales (shape : List ℕ) (scales : List ℚ) : List (List ℚ × String) :=
  (scales.zip shape).map (fun sc => ((List.range sc.2).map (fun i => (i : ℚ) * sc.1), "px"))

/-- Modelled from the spec: SER reader — a SER file whose declared shape
does not match its value count or calibration count cannot be parsed
(`CorruptFileError`). -/
def serParse (c : SerContent) : Except ReadError (Dataset × Metadata) :=
  if c.values.length = c.shape.prod ∧ c.pixelScales.length = c.shape.length then
    .ok (⟨c.shape, c.values, dimsOfScales c.shape c.pixelScales⟩, c.emiMeta)
  else .error .corruptFile

/-- Modelled from the spec: DM3/DM4 reader analogous to the SER reader. -/
def dmParse (c : DMContent) : Except ReadError (Dataset × Metadata) :=
  if c.values.length = c.shape.prod ∧ c.scales.length = c.shape.length then
    .ok (⟨c.shape, c.values, dimsOfScales c.shape c.scales⟩, c.tags)
  else .error .corruptFile

/-- Modelled from the spec: a format reader as the dispatcher sees it —
a signature test plus a parse function (§4.1, §4.2, §9). -/
structure FormatReader : Type where
  fname : String
  recog : RawFile → Bool
  parse : RawFile → Except ReadError (Dataset × Metadata)

/-- Modelled from the spec: the EMD reader entry of the dispatch table. -/
def emdFormatReader : FormatReader :=
  ⟨"emd",
   fun f => match f with | .hdf5 _ => true | _ => false,
   fun f => match f with | .hdf5 c => emdParse c | _ => .error .corruptFile⟩

/-- Modelled from the spec: the SER reader entry of the dispatch table. -/
def serFormatReader : FormatReader :=
  ⟨"ser",
   fun f => match f with | .ser _ => true | _ => false,
   fun f => match f with | .ser c => serParse c | _ => .error .corruptFile⟩

/-- Modelled from the spec: the DM3/DM4 reader entry of the dispatch
table. -/
def dmFormatReader : FormatReader :=
  ⟨"dm",
   fun f => match f with | .dm _ => true | _ => false,
   fun f => match f with | .dm c => dmParse c | _ => .error .corruptFile⟩

/-- Modelled from the spec: the table of known format readers (§4.1). -/
def readerTable : List FormatReader :=
  [emdFormatReader, serFormatReader, dmFormatReader]

/-- Modelled from the spec: dispatch — try each reader's signature test
in turn; when none recognizes the file, fail with
`UnsupportedFormatError` (§4.1). -/
def dispatch : List FormatReader → RawFile → Except ReadError (Dataset × Metadata)
  | [], _ => .error .unsupportedFormat
  | r :: rs, f => if r.recog f then r.parse f else dispatch rs f

/-- Modelled from the spec: the normalized dataset+metadata result of the
Unified Read Dispatcher (§4.1). -/
def readPair (f : RawFile) : Except ReadError (Dataset × Metadata) :=
  dispatch readerTable f

/-- Modelled from the spec: a value of the dictionary returned by the
convenience read functions (docs/index.rst): the pixel array, a rational
vector, or a metadata mapping. -/
inductive DictValue : Type
  | darr (shape : List ℕ) (xs : List ℤ)
  | qvec (xs : List ℚ)
  | meta (m : Metadata)
  deriving DecidableEq, Repr

/-- Modelled from the spec: the dictionary shape returned by `read` and
the per-format convenience readers. -/
abbrev ResultDict : Type := List (String × DictValue)

/-- Modelled from the spec: package a normalized dataset+metadata pair
as the caller-facing dictionary with its fixed keys (docs/index.rst:
`data`, `pixelSize`). -/
def resultOfPair (p : Dataset × Metadata) : ResultDict :=
  [("data", .darr p.1.shape p.1.data),
   ("pixelSize", .qvec (pixelSizeOf p.1)),
   ("metadata", .meta p.2)]

/-- Modelled from the spec: the top-level convenience `read` function —
dispatch on the file, then expose the result dictionary. -/
def ncemRead (f : RawFile) : Except ReadError ResultDict :=
  (readPair f).map resultOfPair

/-- Modelled from the spec: the SER convenience reader `serReader`. -/
def serReader (c : SerContent) : Except ReadError ResultDict :=
  (serParse c).map resultOfPair

/-- Modelled from the spec: the DM convenience reader `dmReader`. -/
def dmReader (c : DMContent) : Except ReadError ResultDict :=
  (dmParse c).map resultOfPair

/-- Modelled from the spec: the EMD convenience reader `emdReader`. -/
def emdReader (c : EMDContainer) : Except ReadError ResultDict :=
  (emdParse c).map resultOfPair

/-- Modelled from the spec: the EMD Writer's serialization of one
Dataset plus Metadata into the container layout (§4.3); attribute
storage in the metadata group does not preserve insertion order, which
is modelled by storing the attributes sorted by key. -/
def emdWrite (d : Dataset) (md : Metadata) : EMDContainer :=
  ⟨[⟨"dataset0", d.shape, d.data, d.dims,
     List.insertionSort (fun a b => a.1 ≤ b.1) md⟩]⟩

/-- Modelled from the spec: a Format Reader Handle after its header-parse
phase — the open file's bulk data region plus the in-memory index of
parsed offsets (§3 Format Reader Handle, §4.2). -/
structure ReaderIndexEntry : Type where
  offset : ℕ
  shape : List ℕ
  deriving DecidableEq, Repr

/-- Modelled from the spec: an open format reader, holding the file's
data region and the index built during header parsing. -/
structure ReaderHandle : Type where
  raw : List ℤ
  entries : List ReaderIndexEntry
  deriving DecidableEq, Repr

/-- Modelled from the spec: `getDataset(i)` — the i-th full dataset's
array, extracted from the file data using the parsed index (§4.2). -/
def getDataset (h : ReaderHandle) (d : ℕ) : Option (List ℕ × List ℤ) :=
  match h.entries[d]? with
  | none => none
  | some e => some (e.shape, (h.raw.drop e.offset).take e.shape.prod)

/-- Modelled from the spec: `getSlice(datasetIndex, sliceIndex)` — one 2D
plane of a higher-dimensional dataset, reading only that plane's range of
the file data (§4.2). -/
def getSlice (h : ReaderHandle) (d s : ℕ) : Option (List ℤ) :=
  match h.entries[d]? with
  | none => none
  | some e =>
      match e.shape with
      | [] => none
      | n :: rest =>
          if s < n then
            some ((h.raw.drop (e.offset + s * rest.prod)).take rest.prod)
          else none

/-- Modelled from the spec: a filesystem as a mapping from paths to EMD
container contents (§5: the only shared resource is the filesystem). -/
abbrev FileSys : Type := List (String × EMDContainer)

/-- Modelled from the spec: read a path's contents. -/
def fsGet : FileSys → String → Option EMDContainer
  | [], _ => none
  | e :: fs, p => if e.1 = p then some e.2 else fsGet fs p

/-- Modelled from the spec: write a path's contents. -/
def fsSet (fs : FileSys) (p : String) (c : EMDContainer) : FileSys :=
  (p, c) :: fs.filter (fun e => e.1 ≠ p)

/-- Modelled from the spec: remove a path. -/
def fsDel (fs : FileSys) (p : String) : FileSys :=
  fs.filter (fun e => e.1 ≠ p)

/-- Modelled from the spec: the temporary path the EMD Writer writes to
before atomically replacing the target (§4.3). -/
def tmpPath (target : String) : String := target ++ ".partial"

/-- Modelled from the spec: a truncated container, the state of a
temporary file whose write was interrupted after `k` groups. -/
def truncatedContainer (c : EMDContainer) (k : ℕ) : EMDContainer :=
  ⟨c.nodes.take k⟩

/-- Modelled from the spec: the point at which a filesystem or permission
failure interrupts the EMD Writer (§4.3): creating the temporary file,
part-way through writing it, or during the atomic replace. -/
inductive WFail : Type
  | atCreate
  | atWrite (k : ℕ)
  | atReplace
  deriving DecidableEq, Repr

/-- Modelled from the spec: the EMD Writer's file protocol (§4.3) —
serialize the dataset, write it to a temporary path, then atomically
replace the target; on failure at any point, raise `WriteError`. The
optional `fail` argument injects the failure point. -/
def emdWriteFile (fs : FileSys) (target : String) (d : Dataset)
    (md : Metadata) (fail : Option WFail) : FileSys × Except WriteError Unit :=
  let c := emdWrite d md
  match fail with
  | some .atCreate => (fs, .error .writeFailed)
  | some (.atWrite k) =>
      (fsSet fs (tmpPath target) (truncatedContainer c k), .error .writeFailed)
  | some .atReplace => (fsSet fs (tmpPath target) c, .error .writeFailed)
  | none => (fsSet (fsDel (fsSet fs (tmpPath target) c) (tmpPath target)) target c, .ok ())

/-- Modelled from the spec: the stages of the Ring-Diffraction Evaluation
state machine (§4.8). -/
inductive Stage : Type
  | created
  | prepared
  | peaksFound
  | distortionFitted
  | profiled
  | complete
  deriving DecidableEq, Repr

/-- Modelled from the spec: position of a stage in the pipeline order. -/
def Stage.idx : Stage → ℕ
  | .created => 0
  | .prepared => 1
  | .peaksFound => 2
  | .distortionFitted => 3
  | .profiled => 4
  | .complete => 5

/-- Modelled from the spec: the stage that follows a given stage, if
any. -/
def Stage.nextStage : Stage → Option Stage
  | .created => some .prepared
  | .prepared => some .peaksFound
  | .peaksFound => some .distortionFitted
  | .distortionFitted => some .profiled
  | .profiled => some .complete
  | .complete => none

/-- Modelled from the spec: a Ring-Diffraction Evaluation Record — the
last successfully-completed stage, each stage's computed result (opaque
payloads), and a recorded failure reason (§3, §4.8). -/
structure EvalRecord : Type where
  stage : Stage
  centerParams : Option ℕ
  peaks : Option ℕ
  distFit : Option ℕ
  profile : Option ℕ
  finalResult : Option ℕ
  failureReason : Option String
  deriving DecidableEq, Repr

/-- Modelled from the spec: the stored result of a given stage. -/
def getStageResult (r : EvalRecord) : Stage → Option ℕ
  | .created => some 0
  | .prepared => r.centerParams
  | .peaksFound => r.peaks
  | .distortionFitted => r.distFit
  | .profiled => r.profile
  | .complete => r.finalResult

/-- Modelled from the spec: store a stage's freshly computed result. -/
def setStageResult (r : EvalRecord) (v : ℕ) : Stage → EvalRecord
  | .created => r
  | .prepared => { r with centerParams := some v }
  | .peaksFound => { r with peaks := some v }
  | .distortionFitted => { r with distFit := some v }
  | .profiled => { r with profile := some v }
  | .complete => { r with finalResult := some v }

/-- Modelled from the spec: the outcome of executing one pipeline
stage. -/
inductive StageOutcome : Type
  | success (payload : ℕ)
  | failure (reason : String)
  deriving DecidableEq, Repr

/-- Modelled from the spec: execute the next pipeline stage (§4.8). On
success the record advances and stores the stage's result; on failure
the record stays in its last successfully-completed state, keeps every
earlier result, and records the failure reason. -/
def runNextStage (r : EvalRecord) (o : StageOutcome) : EvalRecord :=
  match r.stage.nextStage with
  | none => r
  | some s =>
      match o with
      | .failure reason => { r with failureReason := some reason }
      | .success v => setStageResult { r with stage := s } v s

/-- Modelled from the spec: drop every stored result strictly downstream
of pipeline position `k` (§4.8 invalidation). -/
def clearAfter (r : EvalRecord) (k : ℕ) : EvalRecord :=
  { r with
    centerParams := if k < Stage.idx .prepared then none else r.centerParams,
    peaks := if k < Stage.idx .peaksFound then none else r.peaks,
    distFit := if k < Stage.idx .distortionFitted then none else r.distFit,
    profile := if k < Stage.idx .profiled then none else r.profile,
    finalResult := if k < Stage.idx .complete then none else r.finalResult }

/-- Modelled from the spec: re-run stage `s` with updated upstream
parameters (§4.8): its new result is stored, everything strictly
downstream is invalidated, and everything upstream is kept. -/
def rerunStage (r : EvalRecord) (s : Stage) (v : ℕ) : EvalRecord :=
  setStageResult { clearAfter r s.idx with stage := s } v s

/-- Modelled from the spec: the raster enumeration of a 2D image's pixel
coordinates (row i, column j with i below the height and j below the
width). -/
def pixelList (hgt wid : ℕ) : List (ℕ × ℕ) :=
  (List.range hgt).flatMap (fun i => (List.range wid).map (fun j => (i, j)))

/-- Modelled from the spec: squared radial distance of a pixel from a
real-valued (sub-pixel) center, computed exactly (§4.4). -/
def radSq (center : ℚ × ℚ) (p : ℕ × ℕ) : ℚ :=
  ((p.1 : ℚ) - center.1) ^ 2 + ((p.2 : ℚ) - center.2) ^ 2

/-- Modelled from the spec: `floor(radius / bin_width)` computed exactly
from the squared radius: the floor of the square root of
`r2 / binWidth^2` (§4.4). -/
def binIndex (r2 binWidth : ℚ) : ℕ :=
  Nat.sqrt ⌊r2 / binWidth ^ 2⌋₊

/-- Modelled from the spec: the largest radius that fits inside the image
bounds from the given center — the distance to the nearest image edge
(§4.4: the profile covers radius 0 to this radius). -/
def maxFitRadius (hgt wid : ℕ) (center : ℚ × ℚ) : ℚ :=
  min (min center.1 ((hgt : ℚ) - 1 - center.1))
      (min center.2 ((wid : ℚ) - 1 - center.2))

/-- Modelled from the spec: the number of reported radial bins — every
bin up to the one containing the maximum fitting radius. -/
def nbins (hgt wid : ℕ) (center : ℚ × ℚ) (binWidth : ℚ) : ℕ :=
  if 0 ≤ maxFitRadius hgt wid center then
    binIndex (maxFitRadius hgt wid center ^ 2) binWidth + 1
  else 0

/-- Modelled from the spec: accumulate one unmasked pixel's intensity
into its radial bin's running sum and count (§4.4). -/
def rpStep (center : ℚ × ℚ) (binWidth : ℚ) (img : ℕ → ℕ → ℚ)
    (acc : (ℕ → ℚ) × (ℕ → ℕ)) (p : ℕ × ℕ) : (ℕ → ℚ) × (ℕ → ℕ) :=
  let b := binIndex (radSq center p) binWidth
  (fun i => if i = b then acc.1 i + img p.1 p.2 else acc.1 i,
   fun i => if i = b then acc.2 i + 1 else acc.2 i)

/-- Modelled from the spec: the Radial Profile Algorithm (§4.4) — one
pass over the unmasked pixels accumulating each pixel's intensity into
the bin of its exact radial distance, then one averaged value per bin;
a bin with no contributing pixel yields the explicit `none` marker. The
mask is `true` on pixels that participate. -/
def radialProfile (hgt wid : ℕ) (img : ℕ → ℕ → ℚ) (mask : ℕ → ℕ → Bool)
    (center : ℚ × ℚ) (binWidth : ℚ) : List (Option ℚ) :=
  let fin := ((pixelList hgt wid).filter (fun p => mask p.1 p.2)).foldl
    (rpStep center binWidth img) (fun _ => 0, fun _ => 0)
  (List.range (nbins hgt wid center binWidth)).map
    (fun b => if fin.2 b = 0 then none else some (fin.1 b / (fin.2 b : ℚ)))

/-- Modelled from the spec: absolute difference of two naturals. -/
def natAbsDiff (a b : ℕ) : ℕ := max (a - b) (b - a)

/-- Modelled from the spec: membership of pixel `q` in the neighborhood
window of radius `rad` around pixel `p` (§4.5); at image borders the
window is clipped simply because only in-bounds pixels are compared. -/
def inNeighborhood (rad : ℕ) (p q : ℕ × ℕ) : Prop :=
  natAbsDiff p.1 q.1 ≤ rad ∧ natAbsDiff p.2 q.2 ≤ rad

instance (rad : ℕ) (p q : ℕ × ℕ) : Decidable (inNeighborhood rad p q) := by
  unfold inNeighborhood; infer_instance

/-- Modelled from the spec: the raster order used to break intensity
ties — lower row first, then lower column (§4.5). -/
def rasterBefore (p q : ℕ × ℕ) : Prop :=
  p.1 < q.1 ∨ (p.1 = q.1 ∧ p.2 < q.2)

instance (p q : ℕ × ℕ) : Decidable (rasterBefore p q) := by
  unfold rasterBefore; infer_instance

/-- Modelled from the spec: the local-maximum test (§4.5) — the pixel is
at or above threshold and beats every other in-bounds pixel of its
clipped neighborhood window, with intensity ties broken in favor of the
raster-earlier pixel. -/
def isPeak (hgt wid : ℕ) (img : ℕ → ℕ → ℚ) (rad : ℕ) (thr : ℚ)
    (p : ℕ × ℕ) : Bool :=
  decide (thr ≤ img p.1 p.2) &&
  (pixelList hgt wid).all (fun q =>
    decide (¬ inNeighborhood rad p q) || decide (q = p) ||
    decide (img q.1 q.2 < img p.1 p.2) ||
    (decide (img q.1 q.2 = img p.1 p.2) && decide (rasterBefore p q)))

/-- Modelled from the spec: the Local Maxima finder (§4.5) — all pixels
passing the local-maximum test, reported as (row, column, intensity)
sorted by descending intensity. -/
def localMax (hgt wid : ℕ) (img : ℕ → ℕ → ℚ) (rad : ℕ) (thr : ℚ) :
    List (ℕ × ℕ × ℚ) :=
  List.insertionSort (fun a b => b.2.2 ≤ a.2.2)
    (((pixelList hgt wid).filter (isPeak hgt wid img rad thr)).map
      (fun p => (p.1, p.2, img p.1 p.2)))

/-- Modelled from the spec: a 2D image with complex values, for the exact
Fourier analysis of Multicorr (§4.7); the Python code holds numpy
arrays. -/
def CImage (m n : ℕ) : Type := Fin m → Fin n → ℂ

/-- Modelled from the spec: the unit phase factor `e^(2 pi i t)` used by
every discrete Fourier transform below. -/
noncomputable def ePhase (t : ℝ) : ℂ := Complex.exp ((2 * Real.pi * t : ℝ) * Complex.I)

/-- Modelled from the spec: the 2D discrete Fourier transform (§4.7:
transform both images to the frequency domain). -/
noncomputable def dft2 {m n : ℕ} (f : CImage m n) (k : Fin m) (l : Fin n) : ℂ :=
  ∑ j1 : Fin m, ∑ j2 : Fin n,
    f j1 j2 * ePhase (-((k : ℝ) * (j1 : ℝ) / (m : ℝ))) *
      ePhase (-((l : ℝ) * (j2 : ℝ) / (n : ℝ)))

/-- Modelled from the spec: the inverse 2D discrete Fourier transform. -/
noncomputable def idft2 {m n : ℕ} (X : Fin m → Fin n → ℂ) (j1 : Fin m)
    (j2 : Fin n) : ℂ :=
  (1 / ((m : ℂ) * (n : ℂ))) * ∑ k : Fin m, ∑ l : Fin n,
    X k l * ePhase ((k : ℝ) * (j1 : ℝ) / (m : ℝ)) *
      ePhase ((l : ℝ) * (j2 : ℝ) / (n : ℝ))

/-- Modelled from the spec: synthesize a (possibly sub-pixel) shift by a
Fourier-domain phase ramp (§8: shifted image synthesized by
Fourier-domain shift). -/
noncomputable def fourierShift {m n : ℕ} (f : CImage m n) (dr dc : ℝ) :
    CImage m n :=
  idft2 (fun k l => dft2 f k l * ePhase (-((k : ℝ) * dr / (m : ℝ))) *
    ePhase (-((l : ℝ) * dc / (n : ℝ))))

/-- Modelled from the spec: the cross-power spectrum of two images
(§4.7). -/
noncomputable def crossSpectrum {m n : ℕ} (f g : CImage m n) (k : Fin m)
    (l : Fin n) : ℂ :=
  (starRingEnd ℂ) (dft2 f k l) * dft2 g k l

/-- Modelled from the spec: phase-mode normalization — the cross-power
spectrum magnitude is normalized to 1 before inverse transforming; a
zero coefficient stays zero (§4.7). -/
noncomputable def phaseNorm (z : ℂ) : ℂ := z / ((Complex.abs z : ℝ) : ℂ)

/-- Modelled from the spec: the phase-correlation surface at a
real-valued (possibly sub-pixel) shift — the inverse transform of the
normalized cross-power spectrum; evaluated off the integer grid this is
exactly the localized upsampled discrete Fourier transform used for
refinement (§4.7). -/
noncomputable def corrSurface {m n : ℕ} (f g : CImage m n) (x y : ℝ) : ℂ :=
  ∑ k : Fin m, ∑ l : Fin n,
    phaseNorm (crossSpectrum f g k l) * ePhase ((k : ℝ) * x / (m : ℝ)) *
      ePhase ((l : ℝ) * y / (n : ℝ))

/-- Modelled from the spec: the one-dimensional pure phase sum the
correlation surface factors through. -/
noncomputable def phaseSum (m : ℕ) (a : ℝ) : ℂ :=
  ∑ k : Fin m, ePhase ((k : ℝ) * a / (m : ℝ))

/-- Modelled from the spec: first strict maximum of a real-valued score
over a candidate list (the earliest candidate wins ties). -/
noncomputable def argmaxBy {α : Type} (score : α → ℝ) : List α → Option α
  | [] => none
  | x :: xs => some (xs.foldl (fun b y => if score b < score y then y else b) x)

/-- Modelled from the spec: the integer-pixel candidate grid of the
correlation surface (§4.7: the integer-pixel peak is located first). -/
def intGrid (m n : ℕ) : List (ℕ × ℕ) := pixelList m n

/-- Modelled from the spec: refinement offsets around the integer peak —
steps of 1/upsample covering two pixels on each side (§4.7: a local
window around the integer peak is upsampled). -/
def fineOffsets (u : ℕ) : List ℤ :=
  List.map (fun j : ℕ => (j : ℤ) - 2 * (u : ℤ)) (List.range (4 * u + 1))

/-- Modelled from the spec: Multicorr in phase-correlation mode (§4.7):
locate the integer-pixel peak of the correlation surface, refine it on
the local upsampled grid of spacing 1/u, and return the sub-pixel shift
together with a peak-magnitude confidence normalized by the image
size. -/
noncomputable def multicorrPhase {m n : ℕ} (f g : CImage m n) (u : ℕ) :
    (ℝ × ℝ) × ℝ :=
  match argmaxBy
      (fun p : ℕ × ℕ => Complex.abs (corrSurface f g (p.1 : ℝ) (p.2 : ℝ)))
      (intGrid m n) with
  | none => ((0, 0), 0)
  | some (x0, y0) =>
      match argmaxBy
          (fun q : ℤ × ℤ => Complex.abs (corrSurface f g
            ((x0 : ℝ) + (q.1 : ℝ) / (u : ℝ)) ((y0 : ℝ) + (q.2 : ℝ) / (u : ℝ))))
          ((fineOffsets u).flatMap (fun a => (fineOffsets u).map (fun b => (a, b)))) with
      | none => (((x0 : ℝ), (y0 : ℝ)),
          Complex.abs (corrSurface f g (x0 : ℝ) (y0 : ℝ)) / ((m : ℝ) * (n : ℝ)))
      | some (a, b) =>
          (((x0 : ℝ) + (a : ℝ) / (u : ℝ), (y0 : ℝ) + (b : ℝ) / (u : ℝ)),
           Complex.abs (corrSurface f g ((x0 : ℝ) + (a : ℝ) / (u : ℝ))
             ((y0 : ℝ) + (b : ℝ) / (u : ℝ))) / ((m : ℝ) * (n : ℝ)))

/-- Modelled from the spec (test fixture): the delta image — one at the
origin pixel, zero elsewhere; its spectrum has unit magnitude at every
frequency, the full-spectral-support case of §4.7. -/
def deltaImage (m n : ℕ) : CImage m n :=
  fun j1 j2 => if j1.val = 0 ∧ j2.val = 0 then 1 else 0

/-- Modelled from the spec: the 1D discrete Fourier transform the 2D
transform factors through (the transforms are separable). -/
noncomputable def dft1 {m : ℕ} (v : Fin m → ℂ) (k : Fin m) : ℂ :=
  ∑ j : Fin m, v j * ePhase (-((k : ℝ) * (j : ℝ) / (m : ℝ)))

/-- Modelled from the spec: the 1D inverse discrete Fourier transform. -/
noncomputable def idft1 {m : ℕ} (v : Fin m → ℂ) (j : Fin m) : ℂ :=
  (1 / (m : ℂ)) * ∑ k : Fin m, v k * ePhase ((k : ℝ) * (j : ℝ) / (m : ℝ))

theorem lsqLoop_ok {α : Type} (P : FitProblem α) :

    ∀ (fuel used : ℕ) (x : α) (p : α) (k : ℕ),
      lsqLoop P fuel used x = .ok (p, k) →
      ∃ j : ℕ, j ≤ fuel ∧ k = used + j ∧ p = P.step^[j] x ∧
        P.converged p = true := by
  intro fuel
  induction fuel with
  | zero =>
      intro used x p k h
      cases hc : P.converged x with
      | true =>
          simp only [lsqLoop, hc, if_true, Except.ok.injEq, Prod.mk.injEq] at h
          refine ⟨0, le_refl 0, by omega, ?_, ?_⟩
          · rw [Function.iterate_zero_apply, h.1]
          · rw [← h.1]; exact hc
      | false => simp [lsqLoop, hc] at h
  | succ n ih =>
      intro used x p k h
      cases hc : P.converged x with
      | true =>
          simp only [lsqLoop, hc, if_true, Except.ok.injEq, Prod.mk.injEq] at h
          refine ⟨0, Nat.zero_le _, by omega, ?_, ?_⟩
          · rw [Function.iterate_zero_apply, h.1]
          · rw [← h.1]; exact hc
      | false =>
          simp only [lsqLoop, hc, if_false, Bool.false_eq_true] at h
          obtain ⟨j, hj, hk, hp, hcv⟩ := ih (used + 1) (P.step x) p k h
          refine ⟨j + 1, Nat.succ_le_succ hj, by omega, ?_, hcv⟩
          rw [hp, Function.iterate_succ_apply]

theorem lsqLoop_error_iff {α : Type} (P : FitProblem α) :
    ∀ (fuel used : ℕ) (x : α),
      lsqLoop P fuel used x = .error .fitDiverged ↔
        ∀ j : ℕ, j ≤ fuel → P.converged (P.step^[j] x) = false := by
  intro fuel
  induction fuel with
  | zero =>
      intro used x
      cases hc : P.converged x with
      | true =>
          simp only [lsqLoop, hc, if_true]
          constructor
          · intro h; cases h
          · intro h
            have := h 0 (le_refl 0)
            rw [Function.iterate_zero_apply, hc] at this
            cases this
      | false =>
          simp only [lsqLoop, hc, Bool.false_eq_true, if_false]
          constructor
          · intro _ j hj
            interval_cases j
            rw [Function.iterate_zero_apply]; exact hc
          · intro h2; trivial
  | succ n ih =>
      intro used x
      cases hc : P.converged x with
      | true =>
          simp only [lsqLoop, hc, if_true]
          constructor
          · intro h; cases h
          · intro h
            have := h 0 (Nat.zero_le _)
            rw [Function.iterate_zero_apply, hc] at this
            cases this
      | false =>
          simp only [lsqLoop, hc, Bool.false_eq_true, if_false]
          rw [ih (used + 1) (P.step x)]
          constructor
          · intro h j hj
            cases j with
            | zero => rw [Function.iterate_zero_apply]; exact hc
            | succ m =>
                rw [Function.iterate_succ_apply]
                exact h m (Nat.le_of_succ_le_succ hj)
          · intro h j hj
            rw [← Function.iterate_succ_apply]
            exact h (j + 1) (Nat.succ_le_succ hj)

/-- C9: the Distortion Correction fit always terminates with an iteration
count bounded by `maxIter`; a successful result used at most `maxIter`
iterations and satisfies the convergence test, and the fit returns
`FitDivergedError` exactly when no iterate within the bound converges
(rather than looping indefinitely). -/
theorem distortionFit_bounded_or_diverged {α : Type} (P : FitProblem α)
    (maxIter : ℕ) (x0 : α) :
    (∀ (p : α) (k : ℕ), distortionFit P maxIter x0 = .ok (p, k) →
       k ≤ maxIter ∧ p = P.step^[k] x0 ∧ P.converged p = true) ∧
    (distortionFit P maxIter x0 = .error .fitDiverged ↔
       ∀ j : ℕ, j ≤ maxIter → P.converged (P.step^[j] x0) = false) := by
  constructor
  · intro p k h
    obtain ⟨j, hj, hk, hp, hcv⟩ := lsqLoop_ok P maxIter 0 x0 p k h
    refine ⟨by omega, ?_, hcv⟩
    rw [hp]
    congr 1
    omega
  · exact lsqLoop_error_iff P maxIter 0 x0

/-- Concrete instantiation of the distortion-fit bound theorem: a problem
over ℕ whose step adds one and which converges at three, run with bound
five from zero. -/
theorem distortionFit_bounded_or_diverged_witness :
    3 ≤ 5 ∧ (fun x => decide (3 ≤ x)) ((Nat.succ)^[3] 0) = true := by
  have h := (distortionFit_bounded_or_diverged
      ⟨Nat.succ, fun x => decide (3 ≤ x)⟩ 5 0).1 3 3 (by rfl)
  exact ⟨h.1, h.2.2⟩

theorem exceptMap_eq_error_iff {ε α β : Type} (g : α → β) (x : Except ε α) (e : ε) :
    x.map g = .error e ↔ x = .error e := by
  cases x <;> simp [Except.map]

theorem exceptMap_eq_ok_iff {ε α β : Type} (g : α → β) (x : Except ε α) (y : β) :
    x.map g = .ok y ↔ ∃ a, x = .ok a ∧ y = g a := by
  cases x with
  | error e => simp [Except.map]
  | ok a => simp [Except.map, eq_comm]

theorem emdParse_ne_unsupported (c : EMDContainer) :
    emdParse c ≠ .error .unsupportedFormat := by
  obtain ⟨nodes⟩ := c
  cases nodes with
  | nil => simp [emdParse]
  | cons a l =>
      unfold emdParse
      dsimp only
      split <;> simp

theorem serParse_ne_unsupported (c : SerContent) :
    serParse c ≠ .error .unsupportedFormat := by
  unfold serParse
  split <;> simp

theorem dmParse_ne_unsupported (c : DMContent) :
    dmParse c ≠ .error .unsupportedFormat := by
  unfold dmParse
  split <;> simp

/-- C1: writing a well-formed Dataset plus Metadata via the EMD Writer
and reading the file back through the Unified Read Dispatcher yields the
same shape, bit-identical pixel data, and a metadata key/value list that
is a permutation of the original (key order may differ). -/
theorem emd_write_read_roundtrip (d : Dataset) (md : Metadata) (hwf : d.wf) :
    ∃ md' : Metadata,
      ncemRead (RawFile.hdf5 (emdWrite d md)) =
        .ok [("data", .darr d.shape d.data),
             ("pixelSize", .qvec (pixelSizeOf d)),
             ("metadata", .meta md')] ∧
      md'.Perm md := by
  obtain ⟨h1, h2⟩ := hwf
  refine ⟨List.insertionSort (fun a b => a.1 ≤ b.1) md, ?_,
    List.perm_insertionSort _ md⟩
  show ((emdParse (emdWrite d md)).map resultOfPair) = _
  simp [emdWrite, emdParse, h1, h2, resultOfPair, pixelSizeOf, Except.map]

/-- Concrete instantiation of the EMD round-trip theorem on a 2×2
dataset with two metadata entries. -/
theorem emd_write_read_roundtrip_witness :
    (Dataset.mk [2, 2] [5, 6, 7, 8] [([0, 1], "nm"), ([0, 1], "nm")]).wf ∧
    ∃ md' : Metadata,
      ncemRead (RawFile.hdf5 (emdWrite ⟨[2, 2], [5, 6, 7, 8], [([0, 1], "nm"), ([0, 1], "nm")]⟩
          [("voltage", MetaValue.num 300), ("exposure", MetaValue.num 5)])) =
        .ok [("data", .darr [2, 2] [5, 6, 7, 8]),
             ("pixelSize", .qvec (pixelSizeOf ⟨[2, 2], [5, 6, 7, 8], [([0, 1], "nm"), ([0, 1], "nm")]⟩)),
             ("metadata", .meta md')] ∧
      md'.Perm [("voltage", MetaValue.num 300), ("exposure", MetaValue.num 5)] :=
  ⟨by decide, emd_write_read_roundtrip _ _ (by decide)⟩

theorem lookup_resultOfPair_data (p : Dataset × Metadata) :
    (resultOfPair p).lookup "data" = some (.darr p.1.shape p.1.data) := by
  simp [resultOfPair, List.lookup]

theorem lookup_resultOfPair_pixelSize (p : Dataset × Metadata) :
    (resultOfPair p).lookup "pixelSize" = some (.qvec (pixelSizeOf p.1)) := by
  simp [resultOfPair, List.lookup]

/-- C10: every successful result of the top-level `read` and of the
per-format convenience readers (`serReader`, `dmReader`, `emdReader`)
stores the pixel array under the fixed key `data` and the per-axis
calibration under the fixed key `pixelSize`. -/
theorem readers_fixed_result_keys :
    (∀ (f : RawFile) (rd : ResultDict), ncemRead f = .ok rd →
      ∃ p : Dataset × Metadata, readPair f = .ok p ∧
        rd.lookup "data" = some (.darr p.1.shape p.1.data) ∧
        rd.lookup "pixelSize" = some (.qvec (pixelSizeOf p.1))) ∧
    (∀ (c : SerContent) (rd : ResultDict), serReader c = .ok rd →
      ∃ p : Dataset × Metadata, serParse c = .ok p ∧
        rd.lookup "data" = some (.darr p.1.shape p.1.data) ∧
        rd.lookup "pixelSize" = some (.qvec (pixelSizeOf p.1))) ∧
    (∀ (c : DMContent) (rd : ResultDict), dmReader c = .ok rd →
      ∃ p : Dataset × Metadata, dmParse c = .ok p ∧
        rd.lookup "data" = some (.darr p.1.shape p.1.data) ∧
        rd.lookup "pixelSize" = some (.qvec (pixelSizeOf p.1))) ∧
    (∀ (c : EMDContainer) (rd : ResultDict), emdReader c = .ok rd →
      ∃ p : Dataset × Metadata, emdParse c = .ok p ∧
        rd.lookup "data" = some (.darr p.1.shape p.1.data) ∧
        rd.lookup "pixelSize" = some (.qvec (pixelSizeOf p.1))) := by
  refine ⟨?_, ?_, ?_, ?_⟩
  · intro f rd h
    rw [ncemRead, exceptMap_eq_ok_iff] at h
    obtain ⟨p, hp, hrd⟩ := h
    exact ⟨p, hp, by rw [hrd]; exact lookup_resultOfPair_data p,
      by rw [hrd]; exact lookup_resultOfPair_pixelSize p⟩
  · intro c rd h
    rw [serReader, exceptMap_eq_ok_iff] at h
    obtain ⟨p, hp, hrd⟩ := h
    exact ⟨p, hp, by rw [hrd]; exact lookup_resultOfPair_data p,
      by rw [hrd]; exact lookup_resultOfPair_pixelSize p⟩
  · intro c rd h
    rw [dmReader, exceptMap_eq_ok_iff] at h
    obtain ⟨p, hp, hrd⟩ := h
    exact ⟨p, hp, by rw [hrd]; exact lookup_resultOfPair_data p,
      by rw [hrd]; exact lookup_resultOfPair_pixelSize p⟩
  · intro c rd h
    rw [emdReader, exceptMap_eq_ok_iff] at h
    obtain ⟨p, hp, hrd⟩ := h
    exact ⟨p, hp, by rw [hrd]; exact lookup_resultOfPair_data p,
      by rw [hrd]; exact lookup_resultOfPair_pixelSize p⟩

/-- Concrete instantiation of the fixed-keys theorem: a 2×2 SER file
with half-pixel calibration, read through `serReader`. -/
theorem readers_fixed_result_keys_witness :
    serReader ⟨[2, 2], [1, 2, 3, 4], [1/2, 1/2], []⟩ =
      .ok (resultOfPair (⟨[2, 2], [1, 2, 3, 4], dimsOfScales [2, 2] [1/2, 1/2]⟩, [])) ∧
    ∃ p : Dataset × Metadata,
      serParse ⟨[2, 2], [1, 2, 3, 4], [1/2, 1/2], []⟩ = .ok p ∧
      (resultOfPair (⟨[2, 2], [1, 2, 3, 4], dimsOfScales [2, 2] [1/2, 1/2]⟩,
          ([] : Metadata))).lookup "data" = some (.darr p.1.shape p.1.data) ∧
      (resultOfPair (⟨[2, 2], [1, 2, 3, 4], dimsOfScales [2, 2] [1/2, 1/2]⟩,
          ([] : Metadata))).lookup "pixelSize" = some (.qvec (pixelSizeOf p.1)) :=
  ⟨by simp [serReader, serParse, Except.map],
   readers_fixed_result_keys.2.1 _ _ (by simp [serReader, serParse, Except.map])⟩

/-- C6: the Unified Read Dispatcher fails with `UnsupportedFormatError`
exactly when no reader in the table recognizes the file by its own
signature; when a reader does recognize it, a `CorruptFileError` from
the dispatcher is exactly that matched reader failing to parse the
required structures; and on any failure no result dictionary is
returned. -/
theorem read_error_contract (f : RawFile) :
    (ncemRead f = .error .unsupportedFormat ↔ ∀ r ∈ readerTable, r.recog f = false) ∧
    (∀ r ∈ readerTable, r.recog f = true →
       (ncemRead f = .error .corruptFile ↔ r.parse f = .error .corruptFile)) ∧
    (∀ e : ReadError, ncemRead f = .error e → ∀ rd : ResultDict, ¬ ncemRead f = .ok rd) := by
  refine ⟨?_, ?_, ?_⟩
  · cases f with
    | hdf5 c =>
        constructor
        · intro h
          rw [show ncemRead (RawFile.hdf5 c) = (emdParse c).map resultOfPair from rfl,
            exceptMap_eq_error_iff] at h
          exact (emdParse_ne_unsupported c h).elim
        · intro hall
          have := hall emdFormatReader (by simp [readerTable])
          simp [emdFormatReader] at this
    | ser c =>
        constructor
        · intro h
          rw [show ncemRead (RawFile.ser c) = (serParse c).map resultOfPair from rfl,
            exceptMap_eq_error_iff] at h
          exact (serParse_ne_unsupported c h).elim
        · intro hall
          have := hall serFormatReader (by simp [readerTable])
          simp [serFormatReader] at this
    | dm c =>
        constructor
        · intro h
          rw [show ncemRead (RawFile.dm c) = (dmParse c).map resultOfPair from rfl,
            exceptMap_eq_error_iff] at h
          exact (dmParse_ne_unsupported c h).elim
        · intro hall
          have := hall dmFormatReader (by simp [readerTable])
          simp [dmFormatReader] at this
    | unknown ext bs =>
        constructor
        · intro _ r hr
          simp [readerTable] at hr
          rcases hr with rfl | rfl | rfl <;> rfl
        · intro _
          rfl
  · intro r hr hrec
    simp [readerTable] at hr
    cases f with
    | hdf5 c =>
        rcases hr with rfl | rfl | rfl
        · rw [show ncemRead (RawFile.hdf5 c) = (emdParse c).map resultOfPair from rfl,
            exceptMap_eq_error_iff]
          exact Iff.rfl
        · simp [serFormatReader] at hrec
        · simp [dmFormatReader] at hrec
    | ser c =>
        rcases hr with rfl | rfl | rfl
        · simp [emdFormatReader] at hrec
        · rw [show ncemRead (RawFile.ser c) = (serParse c).map resultOfPair from rfl,
            exceptMap_eq_error_iff]
          exact Iff.rfl
        · simp [dmFormatReader] at hrec
    | dm c =>
        rcases hr with rfl | rfl | rfl
        · simp [emdFormatReader] at hrec
        · simp [serFormatReader] at hrec
        · rw [show ncemRead (RawFile.dm c) = (dmParse c).map resultOfPair from rfl,
            exceptMap_eq_error_iff]
          exact Iff.rfl
    | unknown ext bs =>
        rcases hr with rfl | rfl | rfl
        · simp [emdFormatReader] at hrec
        · simp [serFormatReader] at hrec
        · simp [dmFormatReader] at hrec
  · intro e he rd hok
    rw [he] at hok
    exact Except.noConfusion hok

/-- Concrete instantiation of the dispatcher error contract: a file with
an unrecognized signature is rejected as unsupported by every reader,
and the failed read returns no dictionary. -/
theorem read_error_contract_witness :
    ncemRead (RawFile.unknown "xyz" [0, 1]) = .error .unsupportedFormat ∧
    (∀ rd : ResultDict, ¬ ncemRead (RawFile.unknown "xyz" [0, 1]) = .ok rd) :=
  ⟨by rfl, (read_error_contract (RawFile.unknown "xyz" [0, 1])).2.2
      ReadError.unsupportedFormat (by rfl)⟩

/-- C5: on an open reader handle whose parsed index entry `d` has a
leading axis of length `n`, `getSlice d s` with `s < n` returns exactly
the `s`-th 2D plane of the array `getDataset d` returns, and its value
depends only on that plane's range of the file data (the full array is
never needed). -/
theorem getSlice_is_plane (h : ReaderHandle) (d s : ℕ) (e : ReaderIndexEntry)
    (n : ℕ) (rest : List ℕ) (he : h.entries[d]? = some e)
    (hshape : e.shape = n :: rest) (hs : s < n) :
    (∃ arr : List ℤ, getDataset h d = some (n :: rest, arr) ∧
       getSlice h d s = some ((arr.drop (s * rest.prod)).take rest.prod)) ∧
    (∀ raw' : List ℤ,
       (raw'.drop (e.offset + s * rest.prod)).take rest.prod =
         (h.raw.drop (e.offset + s * rest.prod)).take rest.prod →
       getSlice ⟨raw', h.entries⟩ d s = getSlice h d s) := by
  constructor
  · refine ⟨(h.raw.drop e.offset).take e.shape.prod, ?_, ?_⟩
    · simp only [getDataset, he, hshape]
    · have hle : s * rest.prod + rest.prod ≤ n * rest.prod := by
        have h1 : (s + 1) * rest.prod ≤ n * rest.prod := Nat.mul_le_mul_right _ hs
        rw [Nat.add_mul, one_mul] at h1
        exact h1
      have hplane :
          (((h.raw.drop e.offset).take e.shape.prod).drop (s * rest.prod)).take
              rest.prod =
            (h.raw.drop (e.offset + s * rest.prod)).take rest.prod := by
        rw [hshape, List.prod_cons, List.drop_take, List.drop_drop, List.take_take]
        have hmin : min rest.prod (n * rest.prod - s * rest.prod) = rest.prod := by
          omega
        rw [hmin]
      rw [hplane]
      simp only [getSlice, he, hshape]
      rw [if_pos hs]
  · intro raw' hagree
    simp only [getSlice, he, hshape]
    rw [if_pos hs, if_pos hs, hagree]

/-- Concrete instantiation of the slice theorem: a handle over six file
values indexed as one 3×2 dataset; slice 1 is the middle plane. -/
theorem getSlice_is_plane_witness :
    ((ReaderHandle.mk [10, 11, 20, 21, 30, 31] [⟨0, [3, 2]⟩]).entries[0]? =
       some ⟨0, [3, 2]⟩) ∧ (1 < 3) ∧
    ((∃ arr : List ℤ,
        getDataset ⟨[10, 11, 20, 21, 30, 31], [⟨0, [3, 2]⟩]⟩ 0 = some (3 :: [2], arr) ∧
        getSlice ⟨[10, 11, 20, 21, 30, 31], [⟨0, [3, 2]⟩]⟩ 0 1 =
          some ((arr.drop (1 * List.prod [2])).take (List.prod [2]))) ∧
     (∀ raw' : List ℤ,
        (raw'.drop (0 + 1 * List.prod [2])).take (List.prod [2]) =
          (([10, 11, 20, 21, 30, 31] : List ℤ).drop (0 + 1 * List.prod [2])).take (List.prod [2]) →
        getSlice ⟨raw', [⟨0, [3, 2]⟩]⟩ 0 1 =
          getSlice ⟨[10, 11, 20, 21, 30, 31], [⟨0, [3, 2]⟩]⟩ 0 1)) :=
  ⟨by decide, by decide,
   getSlice_is_plane ⟨[10, 11, 20, 21, 30, 31], [⟨0, [3, 2]⟩]⟩ 0 1 ⟨0, [3, 2]⟩ 3 [2]
     (by decide) rfl (by decide)⟩

theorem fsGet_fsSet_self (fs : FileSys) (p : String) (c : EMDContainer) :
    fsGet (fsSet fs p c) p = some c := by
  rw [fsSet, fsGet, if_pos rfl]

theorem fsGet_filter_ne (fs : FileSys) (p q : String) (hne : q ≠ p) :
    fsGet (fs.filter (fun e => e.1 ≠ p)) q = fsGet fs q := by
  induction fs with
  | nil => rfl
  | cons a t ih =>
      rw [List.filter_cons]
      by_cases ha : a.1 = p
      · have hd : decide (a.1 ≠ p) = false := by simp [ha]
        rw [hd]
        simp only [Bool.false_eq_true, if_false]
        rw [ih]
        have hq : ¬ a.1 = q := fun hq => hne (by rw [← hq, ha])
        rw [fsGet, if_neg hq]
      · have hd : decide (a.1 ≠ p) = true := by simp [ha]
        rw [hd]
        simp only [if_true]
        by_cases hq : a.1 = q
        · rw [fsGet, fsGet, if_pos hq, if_pos hq]
        · rw [fsGet, fsGet, if_neg hq, if_neg hq, ih]

theorem fsGet_fsSet_ne (fs : FileSys) (p q : String) (c : EMDContainer)
    (hne : q ≠ p) : fsGet (fsSet fs p c) q = fsGet fs q := by
  rw [fsSet, fsGet, if_neg (fun hpq => hne hpq.symm)]
  exact fsGet_filter_ne fs p q hne

theorem fsGet_fsDel_ne (fs : FileSys) (p q : String) (hne : q ≠ p) :
    fsGet (fsDel fs p) q = fsGet fs q := by
  rw [fsDel]
  exact fsGet_filter_ne fs p q hne

theorem tmpPath_ne (target : String) : tmpPath target ≠ target := by
  intro h
  have hd := congrArg String.data h
  rw [tmpPath, String.data_append] at hd
  have := congrArg List.length hd
  rw [List.length_append] at this
  simp at this

theorem target_ne_tmpPath (target : String) : target ≠ tmpPath target :=
  fun h => tmpPath_ne target h.symm

/-- C7: the EMD Writer never partially overwrites an existing target: it
writes to a temporary path and atomically replaces the target, so after
any run the target holds either its original contents or the complete
new container; every injected filesystem failure raises `WriteError`
and leaves the target's original contents unchanged; a successful run
installs the new container. -/
theorem emdWriteFile_atomic (fs : FileSys) (target : String) (d : Dataset)
    (md : Metadata) (fail : Option WFail) :
    (∀ e : WriteError, (emdWriteFile fs target d md fail).2 = .error e →
       fsGet (emdWriteFile fs target d md fail).1 target = fsGet fs target) ∧
    ((emdWriteFile fs target d md fail).2 = .ok () →
       fsGet (emdWriteFile fs target d md fail).1 target = some (emdWrite d md)) ∧
    ((emdWriteFile fs target d md fail).2 = .error .writeFailed ↔ fail ≠ none) ∧
    (fsGet (emdWriteFile fs target d md fail).1 target = fsGet fs target ∨
     fsGet (emdWriteFile fs target d md fail).1 target = some (emdWrite d md)) := by
  have hne := target_ne_tmpPath target
  match fail with
  | none =>
      refine ⟨?_, ?_, ?_, ?_⟩
      · intro e he
        exact absurd he (by simp [emdWriteFile])
      · intro _
        exact fsGet_fsSet_self _ target (emdWrite d md)
      · simp [emdWriteFile]
      · right
        exact fsGet_fsSet_self _ target (emdWrite d md)
  | some .atCreate =>
      refine ⟨?_, ?_, ?_, ?_⟩
      · intro e _
        rfl
      · intro hok
        exact absurd hok (by simp [emdWriteFile])
      · simp [emdWriteFile]
      · left; rfl
  | some (.atWrite k) =>
      refine ⟨?_, ?_, ?_, ?_⟩
      · intro e _
        exact fsGet_fsSet_ne fs (tmpPath target) target _ hne
      · intro hok
        exact absurd hok (by simp [emdWriteFile])
      · simp [emdWriteFile]
      · left
        exact fsGet_fsSet_ne fs (tmpPath target) target _ hne
  | some .atReplace =>
      refine ⟨?_, ?_, ?_, ?_⟩
      · intro e _
        exact fsGet_fsSet_ne fs (tmpPath target) target _ hne
      · intro hok
        exact absurd hok (by simp [emdWriteFile])
      · simp [emdWriteFile]
      · left
        exact fsGet_fsSet_ne fs (tmpPath target) target _ hne

/-- Concrete instantiation of the writer atomicity theorem: a failure
during the atomic replace leaves the pre-existing target contents
visible, and a clean run installs the new container. -/
theorem emdWriteFile_atomic_witness :
    fsGet (emdWriteFile [("out.emd", ⟨[]⟩)] "out.emd" ⟨[], [], []⟩ []
        (some .atReplace)).1 "out.emd" =
      fsGet [("out.emd", ⟨[]⟩)] "out.emd" ∧
    fsGet (emdWriteFile [("out.emd", ⟨[]⟩)] "out.emd" ⟨[], [], []⟩ [] none).1
        "out.emd" = some (emdWrite ⟨[], [], []⟩ []) :=
  ⟨(emdWriteFile_atomic [("out.emd", ⟨[]⟩)] "out.emd" ⟨[], [], []⟩ []
      (some .atReplace)).1 WriteError.writeFailed (by rfl),
   (emdWriteFile_atomic [("out.emd", ⟨[]⟩)] "out.emd" ⟨[], [], []⟩ [] none).2.1
      (by rfl)⟩

/-- C8: a failing stage execution leaves the Ring-Diffraction Evaluation
Record in its last successfully-completed state with the failure reason
recorded and no earlier result rolled back; re-running a later stage
with updated upstream parameters keeps every upstream result, stores the
new stage result, and invalidates exactly the downstream results. -/
theorem evalRecord_stage_contract (r : EvalRecord) (reason : String)
    (s : Stage) (v : ℕ) (hs : s ≠ .created) :
    ((runNextStage r (.failure reason)).stage = r.stage ∧
     (r.stage ≠ .complete →
        (runNextStage r (.failure reason)).failureReason = some reason) ∧
     (∀ s' : Stage,
        getStageResult (runNextStage r (.failure reason)) s' =
          getStageResult r s')) ∧
    ((rerunStage r s v).stage = s ∧
     getStageResult (rerunStage r s v) s = some v ∧
     (∀ s' : Stage, s'.idx < s.idx →
        getStageResult (rerunStage r s v) s' = getStageResult r s') ∧
     (∀ s' : Stage, s.idx < s'.idx →
        getStageResult (rerunStage r s v) s' = none)) := by
  obtain ⟨st, cp, pk, df, pf, fr, flr⟩ := r
  refine ⟨⟨?_, ?_, ?_⟩, ?_, ?_, ?_, ?_⟩
  · cases st <;> rfl
  · intro hst
    cases st <;> first | rfl | exact absurd rfl hst
  · intro s'
    cases st <;> cases s' <;> rfl
  · cases s
    · exact absurd rfl hs
    all_goals rfl
  · cases s
    · exact absurd rfl hs
    all_goals
      simp [rerunStage, clearAfter, setStageResult, getStageResult, Stage.idx]
  · intro s' hlt
    cases s
    · exact absurd rfl hs
    all_goals
      cases s' <;>
        first
          | exact absurd hlt (by decide)
          | simp [rerunStage, clearAfter, setStageResult, getStageResult,
              Stage.idx]
  · intro s' hlt
    cases s
    · exact absurd rfl hs
    all_goals
      cases s' <;>
        first
          | exact absurd hlt (by decide)
          | simp [rerunStage, clearAfter, setStageResult, getStageResult,
              Stage.idx]

/-- Concrete instantiation of the pipeline contract: re-running the
distortion-fit stage on a fully profiled record moves the record to that
stage, and a failing stage run on the same record leaves its stage
unchanged. -/
theorem evalRecord_stage_contract_witness :
    Stage.distortionFitted ≠ Stage.created ∧
    (rerunStage ⟨.profiled, some 1, some 2, some 3, some 4, none, none⟩
        .distortionFitted 7).stage = .distortionFitted ∧
    (runNextStage ⟨.profiled, some 1, some 2, some 3, some 4, none, none⟩
        (.failure "stage failed")).stage = .profiled :=
  ⟨by decide,
   (evalRecord_stage_contract ⟨.profiled, some 1, some 2, some 3, some 4, none, none⟩
      "stage failed" .distortionFitted 7 (by decide)).2.1,
   (evalRecord_stage_contract ⟨.profiled, some 1, some 2, some 3, some 4, none, none⟩
      "stage failed" .distortionFitted 7 (by decide)).1.1⟩

theorem radSq_nonneg (c : ℚ × ℚ) (p : ℕ × ℕ) : 0 ≤ radSq c p := by
  rw [radSq]
  positivity

theorem binIndex_spec (r2 w : ℚ) (h0 : 0 ≤ r2) (hw : 0 < w) :
    ((binIndex r2 w : ℚ) * w) ^ 2 ≤ r2 ∧
      r2 < (((binIndex r2 w : ℚ) + 1) * w) ^ 2 := by
  have hw2 : (0 : ℚ) < w ^ 2 := by positivity
  have hq : (0 : ℚ) ≤ r2 / w ^ 2 := by positivity
  have hfl : ((⌊r2 / w ^ 2⌋₊ : ℚ)) ≤ r2 / w ^ 2 := Nat.floor_le hq
  have hfu : r2 / w ^ 2 < (⌊r2 / w ^ 2⌋₊ : ℚ) + 1 := Nat.lt_floor_add_one _
  have hs1 : binIndex r2 w ^ 2 ≤ ⌊r2 / w ^ 2⌋₊ := Nat.sqrt_le' _
  have hs2 : ⌊r2 / w ^ 2⌋₊ < (binIndex r2 w + 1) ^ 2 := Nat.lt_succ_sqrt' _
  constructor
  · have h1 : ((binIndex r2 w : ℚ)) ^ 2 ≤ (⌊r2 / w ^ 2⌋₊ : ℚ) := by
      exact_mod_cast hs1
    have h2 : ((binIndex r2 w : ℚ)) ^ 2 ≤ r2 / w ^ 2 := le_trans h1 hfl
    calc ((binIndex r2 w : ℚ) * w) ^ 2 = (binIndex r2 w : ℚ) ^ 2 * w ^ 2 := by
          ring
    _ ≤ (r2 / w ^ 2) * w ^ 2 := mul_le_mul_of_nonneg_right h2 (le_of_lt hw2)
    _ = r2 := by field_simp
  · have h1 : ((⌊r2 / w ^ 2⌋₊ : ℚ)) + 1 ≤ ((binIndex r2 w : ℚ) + 1) ^ 2 := by
      exact_mod_cast Nat.succ_le_of_lt hs2
    have h2 : r2 / w ^ 2 < ((binIndex r2 w : ℚ) + 1) ^ 2 := lt_of_lt_of_le hfu h1
    calc r2 = (r2 / w ^ 2) * w ^ 2 := by field_simp
    _ < ((binIndex r2 w : ℚ) + 1) ^ 2 * w ^ 2 := mul_lt_mul_of_pos_right h2 hw2
    _ = (((binIndex r2 w : ℚ) + 1) * w) ^ 2 := by ring

theorem binIndex_eq_floor_sqrt (r2 w : ℚ) (h0 : 0 ≤ r2) (hw : 0 < w) :
    binIndex r2 w = ⌊Real.sqrt ((r2 : ℝ)) / ((w : ℝ))⌋₊ := by
  obtain ⟨hlo, hhi⟩ := binIndex_spec r2 w h0 hw
  have hwR : (0 : ℝ) < (w : ℝ) := by exact_mod_cast hw
  have hBw : (0 : ℝ) ≤ (binIndex r2 w : ℝ) * (w : ℝ) := by positivity
  have h1 : (binIndex r2 w : ℝ) * (w : ℝ) ≤ Real.sqrt (r2 : ℝ) := by
    rw [← Real.sqrt_sq hBw]
    apply Real.sqrt_le_sqrt
    exact_mod_cast hlo
  have h2 : Real.sqrt (r2 : ℝ) < ((binIndex r2 w : ℝ) + 1) * (w : ℝ) := by
    have hs : Real.sqrt (r2 : ℝ) <
        Real.sqrt ((((binIndex r2 w : ℝ) + 1) * (w : ℝ)) ^ 2) := by
      apply Real.sqrt_lt_sqrt (by exact_mod_cast h0)
      exact_mod_cast hhi
    rwa [Real.sqrt_sq (by positivity)] at hs
  symm
  rw [Nat.floor_eq_iff (by positivity)]
  constructor
  · rw [le_div_iff₀ hwR]
    exact h1
  · rw [div_lt_iff₀ hwR]
    exact h2

theorem mem_pixelList (hgt wid : ℕ) (p : ℕ × ℕ) :
    p ∈ pixelList hgt wid ↔ p.1 < hgt ∧ p.2 < wid := by
  obtain ⟨i, j⟩ := p
  simp only [pixelList, List.mem_flatMap, List.mem_map, List.mem_range,
    Prod.mk.injEq]
  constructor
  · rintro ⟨a, ha, b, hb, h1, h2⟩
    subst h1; subst h2
    exact ⟨ha, hb⟩
  · rintro ⟨h1, h2⟩
    exact ⟨i, h1, j, h2, rfl, rfl⟩

theorem pixelList_nodup (hgt wid : ℕ) : (pixelList hgt wid).Nodup := by
  rw [pixelList, List.nodup_flatMap]
  constructor
  · intro i _
    refine List.Nodup.map ?_ (List.nodup_range wid)
    intro a b h
    simp only [Prod.mk.injEq] at h
    exact h.2
  · refine List.Pairwise.imp ?_ (List.nodup_range hgt)
    intro a b hab
    intro x hxa hxb
    simp only [List.mem_map, List.mem_range] at hxa hxb
    obtain ⟨j1, _, h1⟩ := hxa
    obtain ⟨j2, _, h2⟩ := hxb
    apply hab
    rw [← h1] at h2
    simp only [Prod.mk.injEq] at h2
    exact h2.1.symm

theorem foldl_rpStep_apply (c : ℚ × ℚ) (bw : ℚ) (img : ℕ → ℕ → ℚ) :
    ∀ (l : List (ℕ × ℕ)) (acc : (ℕ → ℚ) × (ℕ → ℕ)) (b : ℕ),
      (l.foldl (rpStep c bw img) acc).1 b =
        acc.1 b + ((l.filter (fun p =>
          binIndex (radSq c p) bw = b)).map (fun p => img p.1 p.2)).sum ∧
      (l.foldl (rpStep c bw img) acc).2 b =
        acc.2 b + (l.filter (fun p => binIndex (radSq c p) bw = b)).length := by
  intro l
  induction l with
  | nil => intro acc b; simp
  | cons p t ih =>
      intro acc b
      rw [List.foldl_cons, List.filter_cons]
      obtain ⟨ih1, ih2⟩ := ih (rpStep c bw img acc p) b
      by_cases hb : binIndex (radSq c p) bw = b
      · rw [ih1, ih2]
        have hstep1 : (rpStep c bw img acc p).1 b = acc.1 b + img p.1 p.2 := by
          simp [rpStep, hb]
        have hstep2 : (rpStep c bw img acc p).2 b = acc.2 b + 1 := by
          simp [rpStep, hb]
        rw [hstep1, hstep2]
        have hd : decide (binIndex (radSq c p) bw = b) = true := by simp [hb]
        rw [hd]
        simp only [if_true, List.map_cons, List.sum_cons, List.length_cons]
        constructor
        · ring
        · omega
      · rw [ih1, ih2]
        have hstep1 : (rpStep c bw img acc p).1 b = acc.1 b := by
          simp [rpStep]
          intro h
          exact absurd h.symm hb
        have hstep2 : (rpStep c bw img acc p).2 b = acc.2 b := by
          simp [rpStep]
          intro h
          exact absurd h.symm hb
        rw [hstep1, hstep2]
        have hd : decide (binIndex (radSq c p) bw = b) = false := by simp [hb]
        rw [hd]
        simp only [Bool.false_eq_true, if_false]
        constructor <;> trivial

theorem pixelList_toFinset (hgt wid : ℕ) :
    (pixelList hgt wid).toFinset = Finset.range hgt ×ˢ Finset.range wid := by
  ext p
  simp [List.mem_toFinset, mem_pixelList, Finset.mem_product, Finset.mem_range]

/-- C3: every unmasked pixel's intensity is assigned to the bin
`floor(radius / bin_width)` of its exact radial distance from the center
(characterized both by the real square root and by the squared-radius
inequalities); each reported bin is the sum of its contributing
unmasked pixels' intensities divided by their count; a bin with no
contributing pixel is reported as the explicit `none` marker rather than
zero; masked-out pixels contribute to no bin. -/
theorem radialProfile_bin_contract (hgt wid : ℕ) (img : ℕ → ℕ → ℚ)
    (mask : ℕ → ℕ → Bool) (c : ℚ × ℚ) (bw : ℚ) (b : ℕ) (hw : 0 < bw)
    (hb : b < nbins hgt wid c bw) :
    (∀ p : ℕ × ℕ,
       binIndex (radSq c p) bw = ⌊Real.sqrt ((radSq c p : ℚ) : ℝ) / ((bw : ℚ) : ℝ)⌋₊ ∧
       ((binIndex (radSq c p) bw : ℚ) * bw) ^ 2 ≤ radSq c p ∧
       radSq c p < (((binIndex (radSq c p) bw : ℚ) + 1) * bw) ^ 2) ∧
    (radialProfile hgt wid img mask c bw)[b]? =
      some (if ((Finset.range hgt ×ˢ Finset.range wid).filter
              (fun p => mask p.1 p.2 = true ∧ binIndex (radSq c p) bw = b)).card = 0
            then none
            else some ((∑ p ∈ (Finset.range hgt ×ˢ Finset.range wid).filter
                (fun p => mask p.1 p.2 = true ∧ binIndex (radSq c p) bw = b),
                  img p.1 p.2) /
              (((Finset.range hgt ×ˢ Finset.range wid).filter
                (fun p => mask p.1 p.2 = true ∧ binIndex (radSq c p) bw = b)).card : ℚ))) := by
  constructor
  · intro p
    exact ⟨binIndex_eq_floor_sqrt _ _ (radSq_nonneg c p) hw,
      (binIndex_spec _ _ (radSq_nonneg c p) hw).1,
      (binIndex_spec _ _ (radSq_nonneg c p) hw).2⟩
  · obtain ⟨hsum, hcnt⟩ := foldl_rpStep_apply c bw img
      ((pixelList hgt wid).filter (fun p => mask p.1 p.2))
      (fun _ => 0, fun _ => 0) b
    have hLBnodup :
        (((pixelList hgt wid).filter (fun p => mask p.1 p.2)).filter
          (fun p => binIndex (radSq c p) bw = b)).Nodup :=
      ((pixelList_nodup hgt wid).filter _).filter _
    have hto :
        (((pixelList hgt wid).filter (fun p => mask p.1 p.2)).filter
            (fun p => binIndex (radSq c p) bw = b)).toFinset =
          (Finset.range hgt ×ˢ Finset.range wid).filter
            (fun p => mask p.1 p.2 = true ∧ binIndex (radSq c p) bw = b) := by
      ext p
      simp only [List.mem_toFinset, List.mem_filter, mem_pixelList,
        Finset.mem_filter, Finset.mem_product, Finset.mem_range,
        decide_eq_true_eq]
      tauto
    have hcard :
        ((Finset.range hgt ×ˢ Finset.range wid).filter
            (fun p => mask p.1 p.2 = true ∧ binIndex (radSq c p) bw = b)).card =
          (((pixelList hgt wid).filter (fun p => mask p.1 p.2)).filter
            (fun p => binIndex (radSq c p) bw = b)).length := by
      rw [← hto, List.card_toFinset, List.dedup_eq_self.mpr hLBnodup]
    have hsumS :
        (∑ p ∈ (Finset.range hgt ×ˢ Finset.range wid).filter
            (fun p => mask p.1 p.2 = true ∧ binIndex (radSq c p) bw = b),
          img p.1 p.2) =
          ((((pixelList hgt wid).filter (fun p => mask p.1 p.2)).filter
            (fun p => binIndex (radSq c p) bw = b)).map (fun p => img p.1 p.2)).sum := by
      rw [← hto]
      exact List.sum_toFinset _ hLBnodup
    rw [hcard, hsumS]
    simp only [radialProfile]
    rw [List.getElem?_map, List.getElem?_range hb]
    simp only [Option.map_some']
    rw [hsum, hcnt]
    simp only [zero_add]

/-- Concrete instantiation of the radial-profile contract: a 1×1 image,
center (0,0), unit bin width; the hypotheses hold and pixel (0,0) is
assigned to the bin of the floor of its radial distance. -/
theorem radialProfile_bin_contract_witness :
    ((0 : ℚ) < 1 ∧ 0 < nbins 1 1 (0, 0) 1) ∧
    binIndex (radSq (0, 0) (0, 0)) 1 =
      ⌊Real.sqrt ((radSq (0, 0) (0, 0) : ℚ) : ℝ) / (((1 : ℚ)) : ℝ)⌋₊ :=
  ⟨⟨by simp, by simp [nbins, maxFitRadius, binIndex]⟩,
   ((radialProfile_bin_contract 1 1 (fun _ _ => 5) (fun _ _ => true) (0, 0) 1 0
      (by simp) (by simp [nbins, maxFitRadius, binIndex])).1 (0, 0)).1⟩

theorem isPeak_iff (hgt wid : ℕ) (img : ℕ → ℕ → ℚ) (rad : ℕ) (thr : ℚ)
    (p : ℕ × ℕ) :
    isPeak hgt wid img rad thr p = true ↔
      (thr ≤ img p.1 p.2 ∧ ∀ q : ℕ × ℕ, q.1 < hgt → q.2 < wid →
        inNeighborhood rad p q → q ≠ p →
        (img q.1 q.2 < img p.1 p.2 ∨
         (img q.1 q.2 = img p.1 p.2 ∧ rasterBefore p q))) := by
  rw [isPeak]
  simp only [Bool.and_eq_true, decide_eq_true_eq, List.all_eq_true,
    Bool.or_eq_true, Bool.and_eq_true, decide_eq_true_eq]
  constructor
  · rintro ⟨h1, h2⟩
    refine ⟨h1, ?_⟩
    intro q hq1 hq2 hin hne
    have := h2 q ((mem_pixelList hgt wid q).mpr ⟨hq1, hq2⟩)
    tauto
  · rintro ⟨h1, h2⟩
    refine ⟨h1, ?_⟩
    intro q hq
    have hm := (mem_pixelList hgt wid q).mp hq
    by_cases hne : q = p
    · tauto
    · by_cases hin : inNeighborhood rad p q
      · have := h2 q hm.1 hm.2 hin hne
        tauto
      · tauto

theorem filter_eq_singleton_of_unique {α : Type} (l : List α) (P : α → Bool)
    (a : α) (hnd : l.Nodup) (ha : a ∈ l) (hP : P a = true)
    (huniq : ∀ x ∈ l, P x = true → x = a) : l.filter P = [a] := by
  induction l with
  | nil => cases ha
  | cons x t ih =>
      rw [List.filter_cons]
      have hnd' := List.nodup_cons.mp hnd
      rcases List.mem_cons.mp ha with rfl | hat
      · rw [hP]
        simp only [if_true]
        have ht : t.filter P = [] := by
          rw [List.filter_eq_nil_iff]
          intro y hy hPy
          exact absurd ((huniq y (List.mem_cons_of_mem _ hy) hPy) ▸ hy) hnd'.1
        rw [ht]
      · have hPx : P x = false := by
          cases hPx : P x with
          | true =>
              exact absurd (huniq x (List.mem_cons_self x t) hPx ▸ hat) hnd'.1
          | false => rfl
        rw [hPx]
        simp only [Bool.false_eq_true, if_false]
        exact ih hnd'.2 hat
          (fun y hy hPy => huniq y (List.mem_cons_of_mem _ hy) hPy)

/-- C4: the Local Maxima finder reports a pixel iff it is at or above
threshold and strictly beats every other pixel in its clipped in-bounds
neighborhood window, intensity ties broken in favor of the
raster-earlier pixel (lower row, then lower column); the returned
(row, column, intensity) peaks are sorted by descending intensity; and
an image flat below threshold except one spike at or above threshold
yields exactly the one peak at the spike's coordinates. -/
theorem localMax_contract (hgt wid rad : ℕ) (thr : ℚ) :
    (∀ (img : ℕ → ℕ → ℚ) (i j : ℕ) (w : ℚ),
       (i, j, w) ∈ localMax hgt wid img rad thr ↔
         (i < hgt ∧ j < wid ∧ w = img i j ∧ thr ≤ img i j ∧
          ∀ q : ℕ × ℕ, q.1 < hgt → q.2 < wid →
            inNeighborhood rad (i, j) q → q ≠ (i, j) →
            (img q.1 q.2 < img i j ∨
             (img q.1 q.2 = img i j ∧ rasterBefore (i, j) q)))) ∧
    (∀ img : ℕ → ℕ → ℚ,
       (localMax hgt wid img rad thr).Sorted (fun a b => b.2.2 ≤ a.2.2)) ∧
    (∀ (img : ℕ → ℕ → ℚ) (r0 c0 : ℕ) (v : ℚ),
       r0 < hgt → c0 < wid →
       (∀ i j, i < hgt → j < wid → (i, j) ≠ (r0, c0) → img i j = v) →
       v < thr → thr ≤ img r0 c0 →
       localMax hgt wid img rad thr = [(r0, c0, img r0 c0)]) := by
  refine ⟨?_, ?_, ?_⟩
  · intro img i j w
    constructor
    · intro hmem
      have hmem' := (List.perm_insertionSort
        (fun a b : ℕ × ℕ × ℚ => b.2.2 ≤ a.2.2) _).mem_iff.mp hmem
      simp only [List.mem_map, List.mem_filter] at hmem'
      obtain ⟨p, ⟨hpl, hpk⟩, heq⟩ := hmem'
      obtain ⟨h1, h2, h3⟩ : p.1 = i ∧ p.2 = j ∧ img p.1 p.2 = w := by
        simpa [Prod.ext_iff] using heq
      have hm := (mem_pixelList hgt wid p).mp hpl
      rw [isPeak_iff] at hpk
      subst h1
      subst h2
      subst h3
      refine ⟨hm.1, hm.2, rfl, hpk.1, ?_⟩
      intro q hq1 hq2 hin hne
      exact hpk.2 q hq1 hq2 (by simpa using hin) (by simpa using hne)
    · rintro ⟨h1, h2, h3, h4, h5⟩
      apply (List.perm_insertionSort
        (fun a b : ℕ × ℕ × ℚ => b.2.2 ≤ a.2.2) _).mem_iff.mpr
      simp only [List.mem_map, List.mem_filter]
      refine ⟨(i, j), ⟨(mem_pixelList hgt wid _).mpr ⟨h1, h2⟩, ?_⟩, by simp [h3]⟩
      rw [isPeak_iff]
      exact ⟨h4, h5⟩
  · intro img
    haveI : IsTotal (ℕ × ℕ × ℚ) (fun a b => b.2.2 ≤ a.2.2) :=
      ⟨fun a b => le_total b.2.2 a.2.2⟩
    haveI : IsTrans (ℕ × ℕ × ℚ) (fun a b => b.2.2 ≤ a.2.2) :=
      ⟨fun a b c h1 h2 => le_trans h2 h1⟩
    exact List.sorted_insertionSort _ _
  · intro img r0 c0 v hr0 hc0 hflat hv hthr
    rw [localMax]
    have hfilter : (pixelList hgt wid).filter (isPeak hgt wid img rad thr) =
        [(r0, c0)] := by
      apply filter_eq_singleton_of_unique _ _ _ (pixelList_nodup hgt wid)
        ((mem_pixelList hgt wid _).mpr ⟨hr0, hc0⟩)
      · rw [isPeak_iff]
        refine ⟨hthr, ?_⟩
        intro q hq1 hq2 _ hne
        left
        rw [hflat q.1 q.2 hq1 hq2 (by simpa using hne)]
        exact lt_of_lt_of_le hv hthr
      · intro x hx hP
        by_contra hne
        rw [isPeak_iff] at hP
        have hm := (mem_pixelList hgt wid x).mp hx
        have hval : img x.1 x.2 = v := hflat x.1 x.2 hm.1 hm.2 (by simpa using hne)
        have := hP.1
        rw [hval] at this
        exact absurd (lt_of_lt_of_le hv this) (lt_irrefl _)
    rw [hfilter]
    simp [List.insertionSort]

/-- Concrete instantiation of the local-maxima contract: a 3×3 image
with a single unit spike at (1,1) on a zero background, threshold one,
neighborhood radius one — exactly one peak is found, at the spike. -/
theorem localMax_contract_witness :
    (1 < 3) ∧ ((0 : ℚ) < 1) ∧
    localMax 3 3 (fun i j => if i = 1 ∧ j = 1 then (1 : ℚ) else 0) 1 1 =
      [(1, 1, (fun i j => if i = 1 ∧ j = 1 then (1 : ℚ) else 0) 1 1)] :=
  ⟨by decide, by simp,
   (localMax_contract 3 3 1 1).2.2
     (fun i j => if i = 1 ∧ j = 1 then (1 : ℚ) else 0) 1 1 0
     (by decide) (by decide)
     (by
       intro i j _ _ hne
       dsimp only
       rw [if_neg]
       rintro ⟨hi, hj⟩
       exact hne (by rw [hi, hj]))
     (by simp) (by simp)⟩

theorem ePhase_zero : ePhase 0 = 1 := by
  simp [ePhase]

theorem ePhase_add (s t : ℝ) : ePhase (s + t) = ePhase s * ePhase t := by
  rw [ePhase, ePhase, ePhase, ← Complex.exp_add]
  congr 1
  push_cast
  ring

theorem abs_ePhase (t : ℝ) : Complex.abs (ePhase t) = 1 := by
  rw [ePhase]
  exact Complex.abs_exp_ofReal_mul_I _

theorem ePhase_ne_zero (t : ℝ) : ePhase t ≠ 0 := by
  rw [ePhase]
  exact Complex.exp_ne_zero _

theorem ePhase_intCast (k : ℤ) : ePhase (k : ℝ) = 1 := by
  rw [ePhase]
  have h : ((2 * Real.pi * (k : ℝ) : ℝ) : ℂ) * Complex.I =
      (k : ℂ) * (2 * (Real.pi : ℂ) * Complex.I) := by
    push_cast
    ring
  rw [h]
  exact Complex.exp_int_mul_two_pi_mul_I k

theorem ePhase_nat_mul (k : ℕ) (t : ℝ) : ePhase ((k : ℝ) * t) = ePhase t ^ k := by
  rw [ePhase, ePhase, ← Complex.exp_nat_mul]
  congr 1
  push_cast
  ring

theorem ePhase_eq_one_iff (t : ℝ) : ePhase t = 1 ↔ ∃ k : ℤ, t = (k : ℝ) := by
  rw [ePhase, Complex.exp_eq_one_iff]
  constructor
  · rintro ⟨k, hk⟩
    refine ⟨k, ?_⟩
    have h2 : ((2 * Real.pi * t : ℝ) : ℂ) * Complex.I =
        ((2 * Real.pi * (k : ℝ) : ℝ) : ℂ) * Complex.I := by
      rw [hk]
      push_cast
      ring
    have h3 := mul_right_cancel₀ Complex.I_ne_zero h2
    have h4 : 2 * Real.pi * t = 2 * Real.pi * (k : ℝ) :=
      Complex.ofReal_inj.mp h3
    have h2pi : (2 * Real.pi) ≠ 0 := by positivity
    exact mul_left_cancel₀ h2pi h4
  · rintro ⟨k, rfl⟩
    refine ⟨k, ?_⟩
    push_cast
    ring

theorem phaseSum_eq_geom (m : ℕ) (a : ℝ) :
    phaseSum m a = ∑ k ∈ Finset.range m, ePhase (a / m) ^ k := by
  rw [phaseSum, Fin.sum_univ_eq_sum_range (fun k => ePhase ((k : ℝ) * a / m))]
  apply Finset.sum_congr rfl
  intro k _
  rw [← ePhase_nat_mul]
  congr 1
  ring

theorem phaseSum_zero_arg (m : ℕ) : phaseSum m 0 = (m : ℂ) := by
  rw [phaseSum]
  simp [ePhase_zero]

theorem phaseSum_period (m : ℕ) (hm : m ≠ 0) (a : ℝ) (t : ℤ) :
    phaseSum m (a + m * t) = phaseSum m a := by
  rw [phaseSum, phaseSum]
  apply Finset.sum_congr rfl
  intro k _
  have hms : (m : ℝ) ≠ 0 := Nat.cast_ne_zero.mpr hm
  have h : (k : ℝ) * (a + m * t) / m = k * a / m + (((k : ℕ) * t : ℤ) : ℝ) := by
    push_cast
    field_simp
    ring
  rw [h, ePhase_add, ePhase_intCast, mul_one]

theorem phaseSum_int_mul (m : ℕ) (hm : m ≠ 0) (t : ℤ) :
    phaseSum m ((m : ℝ) * t) = (m : ℂ) := by
  have h := phaseSum_period m hm 0 t
  rw [zero_add] at h
  rw [h, phaseSum_zero_arg]

theorem abs_phaseSum_le (m : ℕ) (a : ℝ) :
    Complex.abs (phaseSum m a) ≤ (m : ℝ) := by
  rw [phaseSum]
  calc Complex.abs (∑ k : Fin m, ePhase ((k : ℝ) * a / m))
      ≤ ∑ k : Fin m, Complex.abs (ePhase ((k : ℝ) * a / m)) :=
        Complex.abs.sum_le _ _
  _ = ∑ _k : Fin m, (1 : ℝ) := by
        apply Finset.sum_congr rfl
        intro k _
        exact abs_ePhase _
  _ = (m : ℝ) := by simp

theorem phaseSum_closed (m : ℕ) (hm : m ≠ 0) (a : ℝ)
    (hne : ePhase (a / m) ≠ 1) :
    phaseSum m a = (ePhase a - 1) / (ePhase (a / m) - 1) := by
  rw [phaseSum_eq_geom, geom_sum_eq hne]
  have hms : (m : ℝ) ≠ 0 := Nat.cast_ne_zero.mpr hm
  congr 2
  rw [← ePhase_nat_mul]
  congr 1
  field_simp

theorem phaseSum_int_not_dvd (m : ℕ) (hm : m ≠ 0) (d : ℤ)
    (hd : ¬ (m : ℤ) ∣ d) : phaseSum m (d : ℝ) = 0 := by
  have hne : ePhase ((d : ℝ) / m) ≠ 1 := by
    intro h1
    rw [ePhase_eq_one_iff] at h1
    obtain ⟨k, hk⟩ := h1
    apply hd
    have hms : (m : ℝ) ≠ 0 := Nat.cast_ne_zero.mpr hm
    have hdk : (d : ℝ) = (m : ℝ) * k := by
      field_simp at hk
      linarith [hk]
    exact ⟨k, by exact_mod_cast hdk⟩
  rw [phaseSum_closed m hm _ hne, ePhase_intCast d, sub_self, zero_div]

theorem abs_one_add_lt_two {w : ℂ} (hw : Complex.abs w = 1) (hne : w ≠ 1) :
    Complex.abs (1 + w) < 2 := by
  have hre_le : |w.re| ≤ 1 := by
    have h := Complex.abs_re_le_abs w
    rwa [hw] at h
  have hnormSq : w.re ^ 2 + w.im ^ 2 = 1 := by
    have h := Complex.sq_abs w
    rw [hw, Complex.normSq_apply] at h
    nlinarith [h]
  have hre : w.re < 1 := by
    rcases lt_or_eq_of_le (abs_le.mp hre_le).2 with h | h
    · exact h
    · exfalso
      apply hne
      have him : w.im = 0 := by nlinarith
      apply Complex.ext <;> simp [← h, him]
  have h1 : Complex.abs (1 + w) ^ 2 = 2 + 2 * w.re := by
    rw [Complex.sq_abs, Complex.normSq_apply]
    simp only [Complex.add_re, Complex.add_im, Complex.one_re, Complex.one_im]
    nlinarith [hnormSq]
  nlinarith [Complex.abs.nonneg (1 + w), h1, hre]

theorem abs_phaseSum_lt (m : ℕ) (hm : 2 ≤ m) (a : ℝ)
    (hne : ePhase (a / m) ≠ 1) : Complex.abs (phaseSum m a) < (m : ℝ) := by
  have habs : Complex.abs (ePhase (a / m)) = 1 := abs_ePhase _
  rw [phaseSum_eq_geom]
  have hsplit : ∑ k ∈ Finset.range m, ePhase (a / m) ^ k =
      (1 + ePhase (a / m)) + ∑ k ∈ Finset.Ico 2 m, ePhase (a / m) ^ k := by
    rw [Finset.range_eq_Ico,
      ← Finset.sum_Ico_consecutive _ (by omega : 0 ≤ 2) hm]
    congr 1
    rw [← Finset.range_eq_Ico]
    simp [Finset.sum_range_succ]
  rw [hsplit]
  have htail : Complex.abs (∑ k ∈ Finset.Ico 2 m, ePhase (a / m) ^ k) ≤
      ((m : ℝ) - 2) := by
    calc Complex.abs (∑ k ∈ Finset.Ico 2 m, ePhase (a / m) ^ k)
        ≤ ∑ k ∈ Finset.Ico 2 m, Complex.abs (ePhase (a / m) ^ k) :=
          Complex.abs.sum_le _ _
    _ = ∑ _k ∈ Finset.Ico 2 m, (1 : ℝ) := by
          apply Finset.sum_congr rfl
          intro k _
          rw [map_pow, habs, one_pow]
    _ = ((m : ℝ) - 2) := by
          rw [Finset.sum_const, Nat.card_Ico, nsmul_eq_mul, mul_one,
            Nat.cast_sub hm]
          norm_num
  have hhead : Complex.abs (1 + ePhase (a / m)) < 2 :=
    abs_one_add_lt_two habs hne
  calc Complex.abs ((1 + ePhase (a / m)) +
        ∑ k ∈ Finset.Ico 2 m, ePhase (a / m) ^ k)
      ≤ Complex.abs (1 + ePhase (a / m)) +
        Complex.abs (∑ k ∈ Finset.Ico 2 m, ePhase (a / m) ^ k) :=
        Complex.abs.add_le _ _
  _ < 2 + ((m : ℝ) - 2) := by
        apply add_lt_add_of_lt_of_le hhead htail
  _ = (m : ℝ) := by ring

theorem ePhase_eq_cos_add_sin (t : ℝ) :
    ePhase t = ((Real.cos (2 * Real.pi * t) : ℝ) : ℂ) +
      ((Real.sin (2 * Real.pi * t) : ℝ) : ℂ) * Complex.I := by
  rw [ePhase, Complex.exp_mul_I, ← Complex.ofReal_cos, ← Complex.ofReal_sin]

theorem abs_ePhase_sub_one (t : ℝ) :
    Complex.abs (ePhase t - 1) = 2 * |Real.sin (Real.pi * t)| := by
  rw [ePhase_eq_cos_add_sin]
  have h1 : ((Real.cos (2 * Real.pi * t) : ℝ) : ℂ) +
      ((Real.sin (2 * Real.pi * t) : ℝ) : ℂ) * Complex.I - 1 =
      ((Real.cos (2 * Real.pi * t) - 1 : ℝ) : ℂ) +
      ((Real.sin (2 * Real.pi * t) : ℝ) : ℂ) * Complex.I := by
    push_cast
    ring
  rw [h1, Complex.abs_add_mul_I]
  have hc2 := Real.cos_two_mul (Real.pi * t)
  rw [show 2 * (Real.pi * t) = 2 * Real.pi * t by ring] at hc2
  have hpy1 := Real.sin_sq_add_cos_sq (Real.pi * t)
  have hpy2 := Real.sin_sq_add_cos_sq (2 * Real.pi * t)
  have hsq : (Real.cos (2 * Real.pi * t) - 1) ^ 2 +
      Real.sin (2 * Real.pi * t) ^ 2 = (2 * |Real.sin (Real.pi * t)|) ^ 2 := by
    have habs : |Real.sin (Real.pi * t)| ^ 2 = Real.sin (Real.pi * t) ^ 2 :=
      sq_abs _
    nlinarith [hc2, hpy1, hpy2, habs]
  rw [hsq, Real.sqrt_sq (by positivity)]

theorem abs_sin_eq_sin_abs_of_le (y : ℝ) (hy : |y| ≤ Real.pi) :
    |Real.sin y| = Real.sin |y| := by
  rcases le_or_lt 0 y with h | h
  · rw [abs_of_nonneg h, abs_of_nonneg]
    exact Real.sin_nonneg_of_nonneg_of_le_pi h (by rwa [abs_of_nonneg h] at hy)
  · have h1 : (0 : ℝ) ≤ -y := by linarith
    have h2 : -y ≤ Real.pi := by rwa [abs_of_neg h] at hy
    have h3 : 0 ≤ Real.sin (-y) := Real.sin_nonneg_of_nonneg_of_le_pi h1 h2
    rw [abs_of_neg h]
    rw [show Real.sin y = -Real.sin (-y) by rw [Real.sin_neg]; ring]
    rw [abs_neg, abs_of_nonneg h3]

theorem abs_phaseSum_le_inv_dist (m : ℕ) (hm : 1 ≤ m) (a : ℝ) (ha0 : a ≠ 0)
    (ha : |a| ≤ (m : ℝ) / 2) :
    Complex.abs (phaseSum m a) ≤ (m : ℝ) / (2 * |a|) := by
  have hmr : (0 : ℝ) < m := by exact_mod_cast hm
  have hane : (0 : ℝ) < |a| := abs_pos.mpr ha0
  have hfrac : |a / m| ≤ 1 / 2 := by
    rw [abs_div, abs_of_pos hmr, div_le_div_iff hmr (by norm_num : (0:ℝ) < 2)]
    linarith
  have hne : ePhase (a / m) ≠ 1 := by
    intro h1
    rw [ePhase_eq_one_iff] at h1
    obtain ⟨k, hk⟩ := h1
    have hk0 : k ≠ 0 := by
      intro h0
      rw [h0] at hk
      norm_num at hk
      rcases hk with h | h
      · exact ha0 h
      · omega
    have h1le : (1 : ℝ) ≤ |(k : ℝ)| := by exact_mod_cast Int.one_le_abs hk0
    rw [← hk] at h1le
    linarith
  rw [phaseSum_closed m (by omega) a hne, map_div₀]
  have hnum : Complex.abs (ePhase a - 1) ≤ 2 := by
    have h2 := norm_sub_le (ePhase a) 1
    rw [Complex.norm_eq_abs, Complex.norm_eq_abs, Complex.norm_eq_abs] at h2
    rw [abs_ePhase, map_one] at h2
    linarith
  have hden : 2 * (2 * |a| / m) ≤ Complex.abs (ePhase (a / m) - 1) := by
    rw [abs_ePhase_sub_one]
    have hy : |Real.pi * (a / m)| ≤ Real.pi := by
      rw [abs_mul, abs_of_pos Real.pi_pos]
      nlinarith [Real.pi_pos, hfrac, abs_nonneg (a / m)]
    rw [abs_sin_eq_sin_abs_of_le _ hy]
    have habs2 : |Real.pi * (a / m)| = Real.pi * (|a| / m) := by
      rw [abs_mul, abs_of_pos Real.pi_pos, abs_div, abs_of_pos hmr]
    rw [habs2]
    have hX1 : (0 : ℝ) ≤ Real.pi * (|a| / m) := by positivity
    have hX2 : Real.pi * (|a| / m) ≤ Real.pi / 2 := by
      rw [abs_div, abs_of_pos hmr] at hfrac
      nlinarith [Real.pi_pos]
    have hJ := Real.mul_le_sin hX1 hX2
    have heq : 2 / Real.pi * (Real.pi * (|a| / m)) = 2 * |a| / m := by
      field_simp
      ring
    rw [heq] at hJ
    linarith
  have hdpos : (0 : ℝ) < 2 * (2 * |a| / m) := by positivity
  calc Complex.abs (ePhase a - 1) / Complex.abs (ePhase (a / m) - 1)
      ≤ 2 / (2 * (2 * |a| / m)) := div_le_div (by norm_num) hnum hdpos hden
  _ = (m : ℝ) / (2 * |a|) := by
      field_simp
      ring

theorem abs_phaseSum_ge (m : ℕ) (hm : 1 ≤ m) (a : ℝ) (ha : |a| ≤ 1 / 2) :
    2 / Real.pi * (m : ℝ) ≤ Complex.abs (phaseSum m a) := by
  have hmr : (0 : ℝ) < m := by exact_mod_cast hm
  rcases eq_or_ne a 0 with rfl | ha0
  · rw [phaseSum_zero_arg, Complex.abs_natCast]
    have hpi3 := Real.pi_gt_three
    rw [div_mul_eq_mul_div, div_le_iff (by linarith [Real.pi_pos])]
    nlinarith
  · have hane : (0 : ℝ) < |a| := abs_pos.mpr ha0
    have hfrac : |a / m| ≤ 1 / 2 := by
      rw [abs_div, abs_of_pos hmr]
      have hd : |a| / m ≤ |a| := by
        apply div_le_self (abs_nonneg a)
        exact_mod_cast hm
      linarith
    have hne : ePhase (a / m) ≠ 1 := by
      intro h1
      rw [ePhase_eq_one_iff] at h1
      obtain ⟨k, hk⟩ := h1
      have hk0 : k ≠ 0 := by
        intro h0
        rw [h0] at hk
        norm_num at hk
        rcases hk with h | h
        · exact ha0 h
        · omega
      have h1le : (1 : ℝ) ≤ |(k : ℝ)| := by exact_mod_cast Int.one_le_abs hk0
      rw [← hk] at h1le
      linarith
    rw [phaseSum_closed m (by omega) a hne, map_div₀]
    have hnum : 4 * |a| ≤ Complex.abs (ePhase a - 1) := by
      rw [abs_ePhase_sub_one]
      have hy : |Real.pi * a| ≤ Real.pi := by
        rw [abs_mul, abs_of_pos Real.pi_pos]
        nlinarith [Real.pi_pos, abs_nonneg a]
      rw [abs_sin_eq_sin_abs_of_le _ hy]
      have habs2 : |Real.pi * a| = Real.pi * |a| := by
        rw [abs_mul, abs_of_pos Real.pi_pos]
      rw [habs2]
      have hX1 : (0 : ℝ) ≤ Real.pi * |a| := by positivity
      have hX2 : Real.pi * |a| ≤ Real.pi / 2 := by nlinarith [Real.pi_pos]
      have hJ := Real.mul_le_sin hX1 hX2
      have heq : 2 / Real.pi * (Real.pi * |a|) = 2 * |a| := by
        field_simp
        ring
      rw [heq] at hJ
      linarith
    have hden : Complex.abs (ePhase (a / m) - 1) ≤ 2 * (Real.pi * |a| / m) := by
      rw [abs_ePhase_sub_one]
      have hy : |Real.pi * (a / m)| ≤ Real.pi := by
        rw [abs_mul, abs_of_pos Real.pi_pos]
        nlinarith [Real.pi_pos, hfrac, abs_nonneg (a / m)]
      rw [abs_sin_eq_sin_abs_of_le _ hy]
      have habs2 : |Real.pi * (a / m)| = Real.pi * |a| / m := by
        rw [abs_mul, abs_of_pos Real.pi_pos, abs_div, abs_of_pos hmr]
        ring
      rw [habs2]
      have hs := Real.sin_le (by positivity : (0 : ℝ) ≤ Real.pi * |a| / m)
      linarith
    have hdpos : (0 : ℝ) < Complex.abs (ePhase (a / m) - 1) :=
      Complex.abs.pos (sub_ne_zero.mpr hne)
    calc 2 / Real.pi * (m : ℝ)
        = 4 * |a| / (2 * (Real.pi * |a| / m)) := by
          field_simp
          ring
    _ ≤ Complex.abs (ePhase a - 1) / Complex.abs (ePhase (a / m) - 1) :=
          div_le_div (Complex.abs.nonneg _) hnum hdpos hden

theorem sum_ePhase_orth (m : ℕ) (hm : m ≠ 0) (k k' : Fin m) :
    phaseSum m ((k' : ℝ) - (k : ℝ)) = if k' = k then (m : ℂ) else 0 := by
  by_cases h : k' = k
  · rw [if_pos h, h, sub_self, phaseSum_zero_arg]
  · rw [if_neg h]
    have hcast : ((k' : ℝ) - (k : ℝ)) =
        ((((k' : ℕ) : ℤ) - ((k : ℕ) : ℤ) : ℤ) : ℝ) := by
      push_cast
      ring
    rw [hcast]
    apply phaseSum_int_not_dvd m hm
    intro hdvd
    have h1 := k'.isLt
    have h2 := k.isLt
    have habs : |((k' : ℕ) : ℤ) - ((k : ℕ) : ℤ)| < (m : ℤ) := by
      rw [abs_lt]
      constructor <;> omega
    have hz := Int.eq_zero_of_abs_lt_dvd hdvd habs
    apply h
    apply Fin.ext
    omega

theorem dft1_idft1 {m : ℕ} (hm : m ≠ 0) (v : Fin m → ℂ) (k : Fin m) :
    dft1 (idft1 v) k = v k := by
  have hmc : ((m : ℂ)) ≠ 0 := Nat.cast_ne_zero.mpr hm
  rw [dft1]
  have h1 : ∀ j : Fin m, idft1 v j * ePhase (-((k : ℝ) * (j : ℝ) / m)) =
      (1 / (m : ℂ)) * ∑ k' : Fin m,
        v k' * ePhase ((j : ℝ) * ((k' : ℝ) - (k : ℝ)) / m) := by
    intro j
    rw [idft1, mul_assoc, Finset.sum_mul]
    congr 1
    apply Finset.sum_congr rfl
    intro k' _
    rw [show (j : ℝ) * ((k' : ℝ) - (k : ℝ)) / m =
        (k' : ℝ) * (j : ℝ) / m + -((k : ℝ) * (j : ℝ) / m) by ring, ePhase_add]
    ring
  rw [Finset.sum_congr rfl (fun j _ => h1 j)]
  rw [← Finset.mul_sum, Finset.sum_comm]
  have h2 : ∀ k' : Fin m,
      (∑ j : Fin m, v k' * ePhase ((j : ℝ) * ((k' : ℝ) - (k : ℝ)) / m)) =
        v k' * phaseSum m ((k' : ℝ) - (k : ℝ)) := by
    intro k'
    rw [phaseSum, Finset.mul_sum]
  rw [Finset.sum_congr rfl (fun k' _ => h2 k')]
  rw [Finset.sum_congr rfl (fun k' _ => by rw [sum_ePhase_orth m hm k k'])]
  rw [Finset.sum_congr rfl (fun k' _ => by rw [mul_ite, mul_zero])]
  rw [Finset.sum_ite_eq' Finset.univ k (fun k' => v k' * (m : ℂ))]
  rw [if_pos (Finset.mem_univ k)]
  field_simp

theorem dft2_nested {m n : ℕ} (f : CImage m n) (k : Fin m) (l : Fin n) :
    dft2 f k l = dft1 (fun j1 => dft1 (f j1) l) k := by
  rw [dft2, dft1]
  apply Finset.sum_congr rfl
  intro j1 _
  rw [dft1, Finset.sum_mul]
  apply Finset.sum_congr rfl
  intro j2 _
  ring

theorem idft2_nested {m n : ℕ} (X : Fin m → Fin n → ℂ) (j1 : Fin m)
    (j2 : Fin n) : idft2 X j1 j2 = idft1 (fun k => idft1 (X k) j2) j1 := by
  rw [idft2, idft1]
  simp only [idft1, Finset.mul_sum, Finset.sum_mul]
  apply Finset.sum_congr rfl
  intro k _
  apply Finset.sum_congr rfl
  intro l _
  ring

theorem dft1_idft1_swap {m n : ℕ} (H : Fin m → Fin n → ℂ) (j1 : Fin m)
    (l : Fin n) :
    dft1 (fun j2 => idft1 (fun k' => H k' j2) j1) l =
      idft1 (fun k' => dft1 (H k') l) j1 := by
  rw [dft1, idft1]
  simp only [idft1, dft1, Finset.mul_sum, Finset.sum_mul]
  rw [Finset.sum_comm]
  apply Finset.sum_congr rfl
  intro k' _
  apply Finset.sum_congr rfl
  intro j2 _
  ring

theorem dft2_idft2 {m n : ℕ} (hm : m ≠ 0) (hn : n ≠ 0)
    (X : Fin m → Fin n → ℂ) (k : Fin m) (l : Fin n) :
    dft2 (idft2 X) k l = X k l := by
  rw [dft2_nested]
  have hstep1 : (fun j1 => dft1 (idft2 X j1) l) =
      (fun j1 => idft1 (fun k' => dft1 (idft1 (X k')) l) j1) := by
    funext j1
    have hX : idft2 X j1 = fun j2 => idft1 (fun k' => idft1 (X k') j2) j1 := by
      funext j2
      exact idft2_nested X j1 j2
    rw [hX]
    exact dft1_idft1_swap (fun k' => idft1 (X k')) j1 l
  rw [hstep1]
  have hstep2 : (fun j1 => idft1 (fun k' => dft1 (idft1 (X k')) l) j1) =
      (fun j1 => idft1 (fun k' => X k' l) j1) := by
    funext j1
    congr 1
    funext k'
    exact dft1_idft1 hn (X k') l
  rw [hstep2]
  exact dft1_idft1 hm (fun k' => X k' l) k

theorem dft2_fourierShift {m n : ℕ} (hm : m ≠ 0) (hn : n ≠ 0)
    (f : CImage m n) (dr dc : ℝ) (k : Fin m) (l : Fin n) :
    dft2 (fourierShift f dr dc) k l =
      dft2 f k l * ePhase (-((k : ℝ) * dr / m)) * ePhase (-((l : ℝ) * dc / n)) := by
  rw [fourierShift, dft2_idft2 hm hn]

theorem phaseNorm_pos_real_mul {r : ℝ} (hr : 0 < r) (w : ℂ)
    (hw : Complex.abs w = 1) : phaseNorm ((r : ℂ) * w) = w := by
  rw [phaseNorm, map_mul, Complex.abs_ofReal, abs_of_pos hr, hw, mul_one]
  exact mul_div_cancel_left₀ w (by exact_mod_cast ne_of_gt hr)

theorem phaseNorm_crossSpectrum_self {m n : ℕ} (f : CImage m n) (k : Fin m)
    (l : Fin n) (hf : dft2 f k l ≠ 0) :
    phaseNorm (crossSpectrum f f k l) = 1 := by
  rw [crossSpectrum]
  have h1 : (starRingEnd ℂ) (dft2 f k l) * dft2 f k l =
      ((Complex.normSq (dft2 f k l) : ℝ) : ℂ) * 1 := by
    rw [mul_one, mul_comm, Complex.mul_conj]
  rw [h1]
  exact phaseNorm_pos_real_mul (Complex.normSq_pos.mpr hf) 1 (by simp)

theorem phaseNorm_crossSpectrum_shift {m n : ℕ} (hm : m ≠ 0) (hn : n ≠ 0)
    (f : CImage m n) (dr dc : ℝ) (k : Fin m) (l : Fin n)
    (hf : dft2 f k l ≠ 0) :
    phaseNorm (crossSpectrum f (fourierShift f dr dc) k l) =
      ePhase (-((k : ℝ) * dr / m)) * ePhase (-((l : ℝ) * dc / n)) := by
  rw [crossSpectrum, dft2_fourierShift hm hn]
  have h1 : (starRingEnd ℂ) (dft2 f k l) *
      (dft2 f k l * ePhase (-((k : ℝ) * dr / m)) * ePhase (-((l : ℝ) * dc / n))) =
      ((Complex.normSq (dft2 f k l) : ℝ) : ℂ) *
        (ePhase (-((k : ℝ) * dr / m)) * ePhase (-((l : ℝ) * dc / n))) := by
    rw [← Complex.mul_conj (dft2 f k l)]
    ring
  rw [h1]
  apply phaseNorm_pos_real_mul (Complex.normSq_pos.mpr hf)
  rw [map_mul, abs_ePhase, abs_ePhase, mul_one]

theorem corrSurface_self {m n : ℕ} (f : CImage m n)
    (hf : ∀ (k : Fin m) (l : Fin n), dft2 f k l ≠ 0) (x y : ℝ) :
    corrSurface f f x y = phaseSum m x * phaseSum n y := by
  rw [corrSurface]
  have hterm : ∀ (k : Fin m) (l : Fin n),
      phaseNorm (crossSpectrum f f k l) * ePhase ((k : ℝ) * x / m) *
        ePhase ((l : ℝ) * y / n) =
      ePhase ((k : ℝ) * x / m) * ePhase ((l : ℝ) * y / n) := by
    intro k l
    rw [phaseNorm_crossSpectrum_self f k l (hf k l), one_mul]
  rw [Finset.sum_congr rfl
    (fun k _ => Finset.sum_congr rfl (fun l _ => hterm k l))]
  rw [phaseSum, phaseSum, Finset.sum_mul_sum]

theorem corrSurface_shift {m n : ℕ} (hm : m ≠ 0) (hn : n ≠ 0) (f : CImage m n)
    (dr dc : ℝ) (hf : ∀ (k : Fin m) (l : Fin n), dft2 f k l ≠ 0) (x y : ℝ) :
    corrSurface f (fourierShift f dr dc) x y =
      phaseSum m (x - dr) * phaseSum n (y - dc) := by
  rw [corrSurface]
  have hterm : ∀ (k : Fin m) (l : Fin n),
      phaseNorm (crossSpectrum f (fourierShift f dr dc) k l) *
        ePhase ((k : ℝ) * x / m) * ePhase ((l : ℝ) * y / n) =
      ePhase ((k : ℝ) * (x - dr) / m) * ePhase ((l : ℝ) * (y - dc) / n) := by
    intro k l
    rw [phaseNorm_crossSpectrum_shift hm hn f dr dc k l (hf k l)]
    rw [show (k : ℝ) * (x - dr) / m = -((k : ℝ) * dr / m) + (k : ℝ) * x / m by
        ring,
      show (l : ℝ) * (y - dc) / n = -((l : ℝ) * dc / n) + (l : ℝ) * y / n by
        ring,
      ePhase_add, ePhase_add]
    ring
  rw [Finset.sum_congr rfl
    (fun k _ => Finset.sum_congr rfl (fun l _ => hterm k l))]
  rw [phaseSum, phaseSum, Finset.sum_mul_sum]

theorem dft2_deltaImage (m n : ℕ) (hm : 0 < m) (hn : 0 < n) (k : Fin m)
    (l : Fin n) : dft2 (deltaImage m n) k l = 1 := by
  rw [dft2]
  rw [Finset.sum_eq_single (⟨0, hm⟩ : Fin m)]
  · rw [Finset.sum_eq_single (⟨0, hn⟩ : Fin n)]
    · simp [deltaImage, ePhase_zero]
    · intro j2 _ hj2
      have hz : deltaImage m n ⟨0, hm⟩ j2 = 0 := by
        rw [deltaImage]
        rw [if_neg]
        rintro ⟨_, h2⟩
        exact hj2 (Fin.ext h2)
      rw [hz, zero_mul, zero_mul]
    · intro h
      exact absurd (Finset.mem_univ _) h
  · intro j1 _ hj1
    apply Finset.sum_eq_zero
    intro j2 _
    have hz : deltaImage m n j1 j2 = 0 := by
      rw [deltaImage]
      rw [if_neg]
      rintro ⟨h1, _⟩
      exact hj1 (Fin.ext h1)
    rw [hz, zero_mul, zero_mul]
  · intro h
    exact absurd (Finset.mem_univ _) h

theorem foldl_max_spec {α : Type} (score : α → ℝ) :
    ∀ (l : List α) (b : α),
      ((l.foldl (fun b y => if score b < score y then y else b) b) = b ∨
        (l.foldl (fun b y => if score b < score y then y else b) b) ∈ l) ∧
      score b ≤ score (l.foldl (fun b y => if score b < score y then y else b) b) ∧
      ∀ x ∈ l, score x ≤
        score (l.foldl (fun b y => if score b < score y then y else b) b) := by
  intro l
  induction l with
  | nil =>
      intro b
      refine ⟨Or.inl rfl, le_refl _, ?_⟩
      intro x hx
      cases hx
  | cons y t ih =>
      intro b
      rw [List.foldl_cons]
      obtain ⟨hmem, hble, hall⟩ := ih (if score b < score y then y else b)
      have hb' : score b ≤ score (if score b < score y then y else b) := by
        by_cases h : score b < score y
        · rw [if_pos h]; exact le_of_lt h
        · rw [if_neg h]
      have hy' : score y ≤ score (if score b < score y then y else b) := by
        by_cases h : score b < score y
        · rw [if_pos h]
        · rw [if_neg h]; linarith [not_lt.mp h]
      refine ⟨?_, le_trans hb' hble, ?_⟩
      · rcases hmem with h | h
        · rw [h]
          by_cases hc : score b < score y
          · rw [if_pos hc] at h ⊢
            exact Or.inr (List.mem_cons_self y t)
          · rw [if_neg hc] at h ⊢
            exact Or.inl rfl
        · exact Or.inr (List.mem_cons_of_mem y h)
      · intro x hx
        rcases List.mem_cons.mp hx with rfl | hxt
        · exact le_trans hy' hble
        · exact hall x hxt

theorem foldl_strict_max {α : Type} (score : α → ℝ) (a : α) :
    ∀ (l : List α) (b : α), (b = a ∨ score b < score a) → (a ∈ l ∨ b = a) →
      (∀ x ∈ l, x ≠ a → score x < score a) →
      l.foldl (fun b y => if score b < score y then y else b) b = a := by
  intro l
  induction l with
  | nil =>
      intro b hab ha _
      rcases ha with h | h
      · cases h
      · exact h
  | cons y t ih =>
      intro b hab ha hstr
      rw [List.foldl_cons]
      by_cases hy : y = a
      · have hstr' : ∀ x ∈ t, x ≠ a → score x < score a :=
          fun x hx hxa => hstr x (List.mem_cons_of_mem y hx) hxa
        rcases hab with hba | hlt
        · have hcond : ¬ score b < score y := by
            rw [hba, hy]
            exact lt_irrefl _
          rw [if_neg hcond]
          exact ih b (Or.inl hba) (Or.inr hba) hstr'
        · have hcond : score b < score y := by
            rw [hy]
            exact hlt
          rw [if_pos hcond]
          exact ih y (Or.inl hy) (Or.inr hy) hstr'
      · have hylt : score y < score a :=
          hstr y (List.mem_cons_self y t) hy
        have hab' : (if score b < score y then y else b) = a ∨
            score (if score b < score y then y else b) < score a := by
          by_cases hc : score b < score y
          · rw [if_pos hc]
            exact Or.inr hylt
          · rw [if_neg hc]
            exact hab
        have ha' : a ∈ t ∨ (if score b < score y then y else b) = a := by
          rcases ha with hmem | rfl
          · rcases List.mem_cons.mp hmem with rfl | hmem'
            · exact absurd rfl hy
            · exact Or.inl hmem'
          · have hc : ¬ score b < score y := by
              intro hc
              exact absurd (lt_trans hc hylt) (lt_irrefl _)
            rw [if_neg hc]
            exact Or.inr rfl
        exact ih _ hab' ha'
          (fun x hx hxa => hstr x (List.mem_cons_of_mem y hx) hxa)

theorem argmaxBy_spec {α : Type} (score : α → ℝ) (l : List α) (r : α)
    (h : argmaxBy score l = some r) :
    r ∈ l ∧ ∀ x ∈ l, score x ≤ score r := by
  cases l with
  | nil => cases h
  | cons x t =>
      rw [argmaxBy] at h
      have hr := Option.some_injective _ h
      obtain ⟨hmem, hble, hall⟩ := foldl_max_spec score t x
      rw [hr] at hmem hble hall
      constructor
      · rcases hmem with h1 | h1
        · rw [h1]
          exact List.mem_cons_self x t
        · exact List.mem_cons_of_mem x h1
      · intro z hz
        rcases List.mem_cons.mp hz with rfl | hzt
        · exact hble
        · exact hall z hzt

theorem argmaxBy_eq_of_strict {α : Type} (score : α → ℝ) (l : List α) (a : α)
    (ha : a ∈ l) (hstr : ∀ x ∈ l, x ≠ a → score x < score a) :
    argmaxBy score l = some a := by
  cases l with
  | nil => cases ha
  | cons x t =>
      rw [argmaxBy]
      congr 1
      have hab : x = a ∨ score x < score a := by
        by_cases hx : x = a
        · exact Or.inl hx
        · exact Or.inr (hstr x (List.mem_cons_self x t) hx)
      have ha' : a ∈ t ∨ x = a := by
        rcases List.mem_cons.mp ha with rfl | h
        · exact Or.inr rfl
        · exact Or.inl h
      exact foldl_strict_max score a t x hab ha'
        (fun z hz hza => hstr z (List.mem_cons_of_mem x hz) hza)

theorem argmaxBy_eq_none_iff {α : Type} (score : α → ℝ) (l : List α) :
    argmaxBy score l = none ↔ l = [] := by
  cases l <;> simp [argmaxBy]

theorem mem_intGrid (m n : ℕ) (p : ℕ × ℕ) :
    p ∈ intGrid m n ↔ p.1 < m ∧ p.2 < n := mem_pixelList m n p

theorem mem_fineOffsets (u : ℕ) (a : ℤ) :
    a ∈ fineOffsets u ↔ -(2 * (u : ℤ)) ≤ a ∧ a ≤ 2 * u := by
  rw [fineOffsets, List.mem_map]
  constructor
  · rintro ⟨j, hj, rfl⟩
    rw [List.mem_range] at hj
    constructor <;> omega
  · rintro ⟨h1, h2⟩
    refine ⟨(a + 2 * u).toNat, ?_, ?_⟩
    · rw [List.mem_range]
      omega
    · omega

theorem mem_finePairs (u : ℕ) (p q : ℤ) :
    (p, q) ∈ (fineOffsets u).flatMap
        (fun a => (fineOffsets u).map (fun b => (a, b))) ↔
      p ∈ fineOffsets u ∧ q ∈ fineOffsets u := by
  simp only [List.mem_flatMap, List.mem_map, Prod.mk.injEq]
  constructor
  · rintro ⟨a, ha, b, hb, h1, h2⟩
    subst h1
    subst h2
    exact ⟨ha, hb⟩
  · rintro ⟨hp, hq⟩
    exact ⟨p, hp, q, hq, rfl, rfl⟩

theorem exists_near_int (m : ℕ) (hm : 1 ≤ m) (x : ℝ) :
    ∃ (p : ℕ) (t : ℤ), p < m ∧ |(p : ℝ) - x - m * t| ≤ 1 / 2 := by
  have hmz : (m : ℤ) ≠ 0 := by omega
  refine ⟨(round x % (m : ℤ)).toNat, -(round x / (m : ℤ)), ?_, ?_⟩
  · have h1 : 0 ≤ round x % (m : ℤ) := Int.emod_nonneg _ hmz
    have h2 : round x % (m : ℤ) < m := Int.emod_lt_of_pos _ (by omega)
    omega
  · have h1 : 0 ≤ round x % (m : ℤ) := Int.emod_nonneg _ hmz
    have hdm : (m : ℤ) * (round x / (m : ℤ)) + round x % (m : ℤ) = round x :=
      Int.ediv_add_emod (round x) (m : ℤ)
    have hdmr : (m : ℝ) * ((round x / (m : ℤ) : ℤ) : ℝ) +
        ((round x % (m : ℤ) : ℤ) : ℝ) = ((round x : ℤ) : ℝ) := by
      exact_mod_cast hdm
    have hcast : (((round x % (m : ℤ)).toNat : ℕ) : ℝ) - x -
        (m : ℝ) * ((-(round x / (m : ℤ)) : ℤ) : ℝ) = ((round x : ℤ) : ℝ) - x := by
      have h2 : (((round x % (m : ℤ)).toNat : ℕ) : ℝ) =
          ((round x % (m : ℤ) : ℤ) : ℝ) := by
        norm_cast
        omega
      rw [h2]
      push_cast
      linear_combination hdmr
    rw [hcast]
    have h := abs_sub_round x
    rw [abs_sub_comm] at h
    exact h

theorem exists_reduce (m : ℕ) (hm : 1 ≤ m) (x : ℝ) :
    ∃ t : ℤ, |x - m * t| ≤ (m : ℝ) / 2 := by
  have hmr : (0 : ℝ) < m := by exact_mod_cast hm
  refine ⟨round (x / m), ?_⟩
  have h := abs_sub_round (x / m)
  have heq : |x - m * round (x / m)| = (m : ℝ) * |x / m - round (x / m)| := by
    rw [← abs_of_pos hmr, ← abs_mul]
    congr 1
    field_simp
  rw [heq]
  nlinarith [h, hmr]

theorem mul_lt_mul_of_bounds {A B M N : ℝ} (hA : 0 ≤ A) (hAM : A < M)
    (hB : 0 ≤ B) (hBN : B ≤ N) (hN : 0 < N) : A * B < M * N := by
  nlinarith [hB]

/-- A nonzero real with `|c/m| < 1` has `ePhase (c/m) ≠ 1`. -/
theorem ePhase_frac_ne_one (m : ℕ) (hm : 1 ≤ m) (c : ℝ) (hc0 : c ≠ 0)
    (hcm : |c / m| < 1) : ePhase (c / m) ≠ 1 := by
  intro h1
  rw [ePhase_eq_one_iff] at h1
  obtain ⟨k, hk⟩ := h1
  have hmr : (0 : ℝ) < m := by exact_mod_cast hm
  have hk0 : k ≠ 0 := by
    intro h0
    rw [h0, Int.cast_zero, div_eq_zero_iff] at hk
    rcases hk with h | h
    · exact hc0 h
    · exact absurd h (ne_of_gt hmr)
  have h1le : (1 : ℝ) ≤ |(k : ℝ)| := by exact_mod_cast Int.one_le_abs hk0
  rw [← hk] at h1le
  linarith

/-- Engine for the Multicorr claim: whenever the correlation surface of the
image pair factors as a product of pure phase sums centred at a displacement
on the 1/u grid, the two-stage argmax recovers that displacement exactly,
up to the inherent (m,n)-periodicity, with confidence 1. -/
theorem multicorrPhase_product_engine {m n : ℕ} (hm : 5 ≤ m) (hn : 5 ≤ n)
    (u : ℕ) (hu : 1 ≤ u) (f g : CImage m n) (dr dc : ℝ) (a0 b0 : ℤ)
    (har : dr * u = (a0 : ℝ)) (hbc : dc * u = (b0 : ℝ))
    (hsurf : ∀ x y : ℝ, corrSurface f g x y =
      phaseSum m (x - dr) * phaseSum n (y - dc)) :
    ∃ tr tc : ℤ,
      (multicorrPhase f g u).1 = (dr + (m : ℝ) * tr, dc + (n : ℝ) * tc) ∧
      (multicorrPhase f g u).2 = 1 := by
  have hm0 : m ≠ 0 := by omega
  have hn0 : n ≠ 0 := by omega
  have hmr : (0 : ℝ) < m := by exact_mod_cast (by omega : 0 < m)
  have hnr : (0 : ℝ) < n := by exact_mod_cast (by omega : 0 < n)
  have hur : (0 : ℝ) < u := by exact_mod_cast hu
  have hu0 : (u : ℝ) ≠ 0 := ne_of_gt hur
  have hpip := Real.pi_pos
  have hpi315 := Real.pi_lt_315
  have hpisq : Real.pi * Real.pi < 10 := by nlinarith [hpip, hpi315]
  have habs_eq : ∀ x y : ℝ, Complex.abs (corrSurface f g x y) =
      Complex.abs (phaseSum m (x - dr)) * Complex.abs (phaseSum n (y - dc)) := by
    intro x y
    rw [hsurf x y, map_mul]
  -- stage 1: the integer peak exists
  obtain ⟨r, hr⟩ : ∃ r, argmaxBy
      (fun p : ℕ × ℕ => Complex.abs (corrSurface f g (p.1 : ℝ) (p.2 : ℝ)))
      (intGrid m n) = some r := by
    cases h : argmaxBy
        (fun p : ℕ × ℕ => Complex.abs (corrSurface f g (p.1 : ℝ) (p.2 : ℝ)))
        (intGrid m n) with
    | none =>
        have hnil := (argmaxBy_eq_none_iff _ _).mp h
        have h00 : ((0, 0) : ℕ × ℕ) ∈ intGrid m n :=
          (mem_intGrid m n (0, 0)).mpr ⟨by omega, by omega⟩
        rw [hnil] at h00
        cases h00
    | some r => exact ⟨r, rfl⟩
  obtain ⟨x0, y0⟩ := r
  obtain ⟨hrmem, hrmax⟩ := argmaxBy_spec _ _ _ hr
  -- lower bound on the achieved maximum
  obtain ⟨pr, sr, hpr, hprd⟩ := exists_near_int m (by omega) dr
  obtain ⟨pc, sc2, hpc, hpcd⟩ := exists_near_int n (by omega) dc
  have hnear_r : 2 / Real.pi * m ≤ Complex.abs (phaseSum m ((pr : ℝ) - dr)) := by
    rw [show ((pr : ℝ) - dr) = ((pr : ℝ) - dr - m * sr) + m * sr by ring,
      phaseSum_period m hm0 _ sr]
    exact abs_phaseSum_ge m (by omega) _ hprd
  have hnear_c : 2 / Real.pi * n ≤ Complex.abs (phaseSum n ((pc : ℝ) - dc)) := by
    rw [show ((pc : ℝ) - dc) = ((pc : ℝ) - dc - n * sc2) + n * sc2 by ring,
      phaseSum_period n hn0 _ sc2]
    exact abs_phaseSum_ge n (by omega) _ hpcd
  have hmax_lb : 2 / Real.pi * m * (2 / Real.pi * n) ≤
      Complex.abs (corrSurface f g (x0 : ℝ) (y0 : ℝ)) := by
    have hmem2 : ((pr, pc) : ℕ × ℕ) ∈ intGrid m n :=
      (mem_intGrid m n (pr, pc)).mpr ⟨hpr, hpc⟩
    have h2 := hrmax (pr, pc) hmem2
    have h3 : 2 / Real.pi * m * (2 / Real.pi * n) ≤
        Complex.abs (corrSurface f g ((pr : ℝ)) ((pc : ℝ))) := by
      rw [habs_eq]
      have h0r : (0 : ℝ) ≤ 2 / Real.pi * m := by positivity
      exact mul_le_mul hnear_r hnear_c (by positivity)
        (le_trans h0r hnear_r)
    exact le_trans h3 h2
  -- reduce both coordinates of the integer peak
  obtain ⟨tr, htr⟩ := exists_reduce m (by omega) ((x0 : ℝ) - dr)
  obtain ⟨tc, htc⟩ := exists_reduce n (by omega) ((y0 : ℝ) - dc)
  have hArow : Complex.abs (phaseSum m ((x0 : ℝ) - dr)) =
      Complex.abs (phaseSum m ((x0 : ℝ) - dr - m * tr)) := by
    conv_rhs => rw [show ((x0 : ℝ) - dr - m * tr) =
      ((x0 : ℝ) - dr) + (m : ℝ) * ((-tr : ℤ) : ℝ) by push_cast; ring]
    rw [phaseSum_period m hm0 _ (-tr)]
  have hAcol : Complex.abs (phaseSum n ((y0 : ℝ) - dc)) =
      Complex.abs (phaseSum n ((y0 : ℝ) - dc - n * tc)) := by
    conv_rhs => rw [show ((y0 : ℝ) - dc - n * tc) =
      ((y0 : ℝ) - dc) + (n : ℝ) * ((-tc : ℤ) : ℝ) by push_cast; ring]
    rw [phaseSum_period n hn0 _ (-tc)]
  have hAabs : |(x0 : ℝ) - dr - m * tr| < 2 := by
    rcases eq_or_ne ((x0 : ℝ) - dr - m * tr) 0 with h0 | h0
    · rw [h0]
      norm_num
    · have hB2 := abs_phaseSum_le_inv_dist m (by omega) _ h0 htr
      have hApos : (0 : ℝ) < |(x0 : ℝ) - dr - m * tr| := abs_pos.mpr h0
      have hcol_ub := abs_phaseSum_le n ((y0 : ℝ) - dc)
      have hrow_nonneg := Complex.abs.nonneg (phaseSum m ((x0 : ℝ) - dr))
      have hkey : 2 / Real.pi * m * (2 / Real.pi * n) ≤
          (m / (2 * |(x0 : ℝ) - dr - m * tr|)) * n := by
        calc 2 / Real.pi * m * (2 / Real.pi * n)
            ≤ Complex.abs (corrSurface f g (x0 : ℝ) (y0 : ℝ)) := hmax_lb
        _ = Complex.abs (phaseSum m ((x0 : ℝ) - dr)) *
              Complex.abs (phaseSum n ((y0 : ℝ) - dc)) := habs_eq _ _
        _ ≤ Complex.abs (phaseSum m ((x0 : ℝ) - dr)) * n :=
              mul_le_mul_of_nonneg_left hcol_ub hrow_nonneg
        _ = Complex.abs (phaseSum m ((x0 : ℝ) - dr - m * tr)) * n := by
              rw [hArow]
        _ ≤ (m / (2 * |(x0 : ℝ) - dr - m * tr|)) * n :=
              mul_le_mul_of_nonneg_right hB2 (le_of_lt hnr)
      have hpi2 : 2 / Real.pi * m * (2 / Real.pi * n) =
          4 * m * n / (Real.pi * Real.pi) := by
        field_simp
        ring
      rw [hpi2, div_mul_eq_mul_div, div_le_div_iff (by positivity)
        (by positivity)] at hkey
      have hmn : (0 : ℝ) < m * n := mul_pos hmr hnr
      nlinarith [hkey, hmn, hApos, mul_lt_mul_of_pos_left hpisq hmn]
  have hBabs : |(y0 : ℝ) - dc - n * tc| < 2 := by
    rcases eq_or_ne ((y0 : ℝ) - dc - n * tc) 0 with h0 | h0
    · rw [h0]
      norm_num
    · have hB2 := abs_phaseSum_le_inv_dist n (by omega) _ h0 htc
      have hApos : (0 : ℝ) < |(y0 : ℝ) - dc - n * tc| := abs_pos.mpr h0
      have hrow_ub := abs_phaseSum_le m ((x0 : ℝ) - dr)
      have hcol_nonneg := Complex.abs.nonneg (phaseSum n ((y0 : ℝ) - dc))
      have hkey : 2 / Real.pi * m * (2 / Real.pi * n) ≤
          m * (n / (2 * |(y0 : ℝ) - dc - n * tc|)) := by
        calc 2 / Real.pi * m * (2 / Real.pi * n)
            ≤ Complex.abs (corrSurface f g (x0 : ℝ) (y0 : ℝ)) := hmax_lb
        _ = Complex.abs (phaseSum m ((x0 : ℝ) - dr)) *
              Complex.abs (phaseSum n ((y0 : ℝ) - dc)) := habs_eq _ _
        _ ≤ (m : ℝ) * Complex.abs (phaseSum n ((y0 : ℝ) - dc)) :=
              mul_le_mul_of_nonneg_right hrow_ub hcol_nonneg
        _ = (m : ℝ) * Complex.abs (phaseSum n ((y0 : ℝ) - dc - n * tc)) := by
              rw [hAcol]
        _ ≤ (m : ℝ) * (n / (2 * |(y0 : ℝ) - dc - n * tc|)) :=
              mul_le_mul_of_nonneg_left hB2 (le_of_lt hmr)
      have hpi2 : 2 / Real.pi * m * (2 / Real.pi * n) =
          4 * m * n / (Real.pi * Real.pi) := by
        field_simp
        ring
      rw [hpi2, ← mul_div_assoc, div_le_div_iff (by positivity)
        (by positivity)] at hkey
      have hmn : (0 : ℝ) < m * n := mul_pos hmr hnr
      nlinarith [hkey, hmn, hApos, mul_lt_mul_of_pos_left hpisq hmn]
  -- the refinement offsets that land exactly on the displacement
  set pstar : ℤ := a0 + (u : ℤ) * m * tr - (u : ℤ) * x0 with hpstar_def
  set qstar : ℤ := b0 + (u : ℤ) * n * tc - (u : ℤ) * y0 with hqstar_def
  have hps : (x0 : ℝ) + (pstar : ℝ) / u = dr + m * tr := by
    have hcast : ((pstar : ℤ) : ℝ) = (a0 : ℝ) + u * m * tr - u * x0 := by
      rw [hpstar_def]
      push_cast
      ring
    rw [hcast]
    field_simp
    linarith [har]
  have hqs : (y0 : ℝ) + (qstar : ℝ) / u = dc + n * tc := by
    have hcast : ((qstar : ℤ) : ℝ) = (b0 : ℝ) + u * n * tc - u * y0 := by
      rw [hqstar_def]
      push_cast
      ring
    rw [hcast]
    field_simp
    linarith [hbc]
  have hpdiv : ((pstar : ℤ) : ℝ) / u = dr + m * tr - x0 := by
    linarith [hps]
  have hqdiv : ((qstar : ℤ) : ℝ) / u = dc + n * tc - y0 := by
    linarith [hqs]
  have hpsmall : -(2 * (u : ℤ)) ≤ pstar ∧ pstar ≤ 2 * (u : ℤ) := by
    have hval : ((pstar : ℤ) : ℝ) = u * (dr + m * tr - x0) := by
      rw [← hpdiv]
      field_simp
    have hlt : |((pstar : ℤ) : ℝ)| < 2 * u := by
      rw [hval, abs_mul, abs_of_pos hur]
      have h2 : |dr + (m : ℝ) * tr - x0| = |(x0 : ℝ) - dr - m * tr| := by
        rw [show dr + (m : ℝ) * tr - x0 = -((x0 : ℝ) - dr - m * tr) by ring,
          abs_neg]
      rw [h2]
      nlinarith [hAabs, hur]
    have hlt2 : |pstar| < 2 * (u : ℤ) := by
      have h3 := hlt
      rw [← Int.cast_abs] at h3
      exact_mod_cast h3
    rw [abs_lt] at hlt2
    exact ⟨le_of_lt hlt2.1, le_of_lt hlt2.2⟩
  have hqsmall : -(2 * (u : ℤ)) ≤ qstar ∧ qstar ≤ 2 * (u : ℤ) := by
    have hval : ((qstar : ℤ) : ℝ) = u * (dc + n * tc - y0) := by
      rw [← hqdiv]
      field_simp
    have hlt : |((qstar : ℤ) : ℝ)| < 2 * u := by
      rw [hval, abs_mul, abs_of_pos hur]
      have h2 : |dc + (n : ℝ) * tc - y0| = |(y0 : ℝ) - dc - n * tc| := by
        rw [show dc + (n : ℝ) * tc - y0 = -((y0 : ℝ) - dc - n * tc) by ring,
          abs_neg]
      rw [h2]
      nlinarith [hBabs, hur]
    have hlt2 : |qstar| < 2 * (u : ℤ) := by
      have h3 := hlt
      rw [← Int.cast_abs] at h3
      exact_mod_cast h3
    rw [abs_lt] at hlt2
    exact ⟨le_of_lt hlt2.1, le_of_lt hlt2.2⟩
  have hpmem : (pstar, qstar) ∈ (fineOffsets u).flatMap
      (fun a => (fineOffsets u).map (fun b => (a, b))) := by
    rw [mem_finePairs]
    exact ⟨(mem_fineOffsets u pstar).mpr hpsmall,
      (mem_fineOffsets u qstar).mpr hqsmall⟩
  -- arguments of the surface at refinement points
  have hrow_arg : ∀ p : ℤ, (x0 : ℝ) + (p : ℝ) / u - dr =
      ((p - pstar : ℤ) : ℝ) / u + (m : ℝ) * tr := by
    intro p
    have hsplit : ((p - pstar : ℤ) : ℝ) / u = (p : ℝ) / u - (pstar : ℝ) / u := by
      push_cast
      ring
    rw [hsplit]
    linarith [hps]
  have hcol_arg : ∀ q : ℤ, (y0 : ℝ) + (q : ℝ) / u - dc =
      ((q - qstar : ℤ) : ℝ) / u + (n : ℝ) * tc := by
    intro q
    have hsplit : ((q - qstar : ℤ) : ℝ) / u = (q : ℝ) / u - (qstar : ℝ) / u := by
      push_cast
      ring
    rw [hsplit]
    linarith [hqs]
  have hrow_val : ∀ p : ℤ, Complex.abs (phaseSum m ((x0 : ℝ) + (p : ℝ) / u - dr))
      = Complex.abs (phaseSum m (((p - pstar : ℤ) : ℝ) / u)) := by
    intro p
    rw [hrow_arg p, phaseSum_period m hm0 _ tr]
  have hcol_val : ∀ q : ℤ, Complex.abs (phaseSum n ((y0 : ℝ) + (q : ℝ) / u - dc))
      = Complex.abs (phaseSum n (((q - qstar : ℤ) : ℝ) / u)) := by
    intro q
    rw [hcol_arg q, phaseSum_period n hn0 _ tc]
  -- score of the target refinement point
  have htarget : Complex.abs (corrSurface f g ((x0 : ℝ) + (pstar : ℝ) / u)
      ((y0 : ℝ) + (qstar : ℝ) / u)) = (m : ℝ) * n := by
    rw [habs_eq, hrow_val pstar, hcol_val qstar, sub_self, sub_self]
    norm_num [phaseSum_zero_arg, Complex.abs_natCast]
  -- every other refinement point scores strictly less
  have hrow_lt : ∀ p : ℤ, p ∈ fineOffsets u → p ≠ pstar →
      Complex.abs (phaseSum m (((p - pstar : ℤ) : ℝ) / u)) < (m : ℝ) := by
    intro p hpmem2 hpne
    have hd : (p - pstar : ℤ) ≠ 0 := sub_ne_zero.mpr hpne
    have hc0 : ((p - pstar : ℤ) : ℝ) / u ≠ 0 :=
      div_ne_zero (Int.cast_ne_zero.mpr hd) hu0
    have hbound : |((p - pstar : ℤ) : ℝ)| ≤ 4 * u := by
      rw [← Int.cast_abs]
      have h4 : |p - pstar| ≤ 4 * (u : ℤ) := by
        rw [mem_fineOffsets] at hpmem2
        rw [abs_le]
        omega
      exact_mod_cast h4
    have hum : (u : ℝ) * 5 ≤ (u : ℝ) * m := by
      apply mul_le_mul_of_nonneg_left _ (le_of_lt hur)
      exact_mod_cast hm
    have hfrac : |(((p - pstar : ℤ) : ℝ) / u) / m| < 1 := by
      rw [abs_div, abs_div, abs_of_pos hur, abs_of_pos hmr]
      rw [div_div, div_lt_one (by positivity)]
      linarith [hbound, hum, hur]
    exact abs_phaseSum_lt m (by omega) _
      (ePhase_frac_ne_one m (by omega) _ hc0 hfrac)
  have hcol_lt : ∀ q : ℤ, q ∈ fineOffsets u → q ≠ qstar →
      Complex.abs (phaseSum n (((q - qstar : ℤ) : ℝ) / u)) < (n : ℝ) := by
    intro q hqmem2 hqne
    have hd : (q - qstar : ℤ) ≠ 0 := sub_ne_zero.mpr hqne
    have hc0 : ((q - qstar : ℤ) : ℝ) / u ≠ 0 :=
      div_ne_zero (Int.cast_ne_zero.mpr hd) hu0
    have hbound : |((q - qstar : ℤ) : ℝ)| ≤ 4 * u := by
      rw [← Int.cast_abs]
      have h4 : |q - qstar| ≤ 4 * (u : ℤ) := by
        rw [mem_fineOffsets] at hqmem2
        rw [abs_le]
        omega
      exact_mod_cast h4
    have hum : (u : ℝ) * 5 ≤ (u : ℝ) * n := by
      apply mul_le_mul_of_nonneg_left _ (le_of_lt hur)
      exact_mod_cast hn
    have hfrac : |(((q - qstar : ℤ) : ℝ) / u) / n| < 1 := by
      rw [abs_div, abs_div, abs_of_pos hur, abs_of_pos hnr]
      rw [div_div, div_lt_one (by positivity)]
      linarith [hbound, hum, hur]
    exact abs_phaseSum_lt n (by omega) _
      (ePhase_frac_ne_one n (by omega) _ hc0 hfrac)
  have hstrict : ∀ z ∈ (fineOffsets u).flatMap
      (fun a => (fineOffsets u).map (fun b => (a, b))), z ≠ (pstar, qstar) →
      Complex.abs (corrSurface f g ((x0 : ℝ) + (z.1 : ℝ) / u)
        ((y0 : ℝ) + (z.2 : ℝ) / u)) <
      Complex.abs (corrSurface f g ((x0 : ℝ) + ((pstar, qstar).1 : ℝ) / u)
        ((y0 : ℝ) + ((pstar, qstar).2 : ℝ) / u)) := by
    rintro ⟨p, q⟩ hzmem hzne
    dsimp only
    have hpq := (mem_finePairs u p q).mp hzmem
    rw [htarget, habs_eq, hrow_val p, hcol_val q]
    rcases eq_or_ne p pstar with rfl | hpne
    · have hqne : q ≠ qstar := by
        intro hq
        exact hzne (by rw [hq])
      rw [sub_self, Int.cast_zero, zero_div, phaseSum_zero_arg,
        Complex.abs_natCast]
      exact mul_lt_mul_of_pos_left (hcol_lt q hpq.2 hqne) hmr
    · exact mul_lt_mul_of_bounds (Complex.abs.nonneg _)
        (hrow_lt p hpq.1 hpne) (Complex.abs.nonneg _)
        (abs_phaseSum_le n _) hnr
  have hfine : argmaxBy
      (fun q : ℤ × ℤ => Complex.abs (corrSurface f g
        ((x0 : ℝ) + (q.1 : ℝ) / (u : ℝ)) ((y0 : ℝ) + (q.2 : ℝ) / (u : ℝ))))
      ((fineOffsets u).flatMap (fun a => (fineOffsets u).map (fun b => (a, b))))
      = some (pstar, qstar) :=
    argmaxBy_eq_of_strict _ _ _ hpmem hstrict
  -- assemble the result of the two-stage search
  have hres : multicorrPhase f g u =
      (((x0 : ℝ) + (pstar : ℝ) / u, (y0 : ℝ) + (qstar : ℝ) / u),
        Complex.abs (corrSurface f g ((x0 : ℝ) + (pstar : ℝ) / u)
          ((y0 : ℝ) + (qstar : ℝ) / u)) / ((m : ℝ) * (n : ℝ))) := by
    rw [multicorrPhase, hr]
    simp only [hfine]
  refine ⟨tr, tc, ?_, ?_⟩
  · rw [hres]
    exact Prod.ext hps hqs
  · rw [hres]
    show Complex.abs _ / _ = 1
    rw [htarget]
    field_simp

/-- C2: Multicorr phase-correlation contract (spec §4.7/§8): for images of
full spectral support, correlating an image with itself yields the shift
(0,0) with confidence 1, and correlating it with a copy shifted by any
displacement on the 1/u sub-pixel grid (synthesized by a Fourier-domain
phase ramp) recovers that displacement exactly — hence within
1/upsample_factor — up to the inherent (m,n)-periodicity of the surface,
again with confidence 1; the phase mode normalizes every cross-power
coefficient to unit magnitude first. -/
theorem multicorrPhase_contract (m n u : ℕ) (hm : 5 ≤ m) (hn : 5 ≤ n)
    (hu : 1 ≤ u) (f : CImage m n)
    (hf : ∀ (k : Fin m) (l : Fin n), dft2 f k l ≠ 0) :
    multicorrPhase f f u = ((0, 0), 1) ∧
    ∀ a0 b0 : ℤ, ∃ tr tc : ℤ,
      (multicorrPhase f (fourierShift f ((a0 : ℝ) / u) ((b0 : ℝ) / u)) u).1 =
        ((a0 : ℝ) / u + (m : ℝ) * tr, (b0 : ℝ) / u + (n : ℝ) * tc) ∧
      (multicorrPhase f (fourierShift f ((a0 : ℝ) / u) ((b0 : ℝ) / u)) u).2
        = 1 := by
  have hm0 : m ≠ 0 := by omega
  have hn0 : n ≠ 0 := by omega
  have hmr : (0 : ℝ) < m := by exact_mod_cast (by omega : 0 < m)
  have hnr : (0 : ℝ) < n := by exact_mod_cast (by omega : 0 < n)
  have hur : (0 : ℝ) < u := by exact_mod_cast hu
  have hu0 : (u : ℝ) ≠ 0 := ne_of_gt hur
  constructor
  · -- identical images: the peak is exactly (0,0) with confidence 1
    have habs1 : ∀ x y : ℝ, Complex.abs (corrSurface f f x y) =
        Complex.abs (phaseSum m x) * Complex.abs (phaseSum n y) := by
      intro x y
      rw [corrSurface_self f hf, map_mul]
    have hm00 : ((0, 0) : ℕ × ℕ) ∈ intGrid m n :=
      (mem_intGrid m n (0, 0)).mpr ⟨by omega, by omega⟩
    have htar1 : Complex.abs (corrSurface f f (((0 : ℕ)) : ℝ) (((0 : ℕ)) : ℝ))
        = (m : ℝ) * n := by
      rw [habs1]
      norm_num [phaseSum_zero_arg, Complex.abs_natCast]
    have hint_strict : ∀ z ∈ intGrid m n, z ≠ ((0, 0) : ℕ × ℕ) →
        Complex.abs (corrSurface f f (z.1 : ℝ) (z.2 : ℝ)) <
        Complex.abs (corrSurface f f ((((0, 0) : ℕ × ℕ).1 : ℕ) : ℝ)
          ((((0, 0) : ℕ × ℕ).2 : ℕ) : ℝ)) := by
      rintro ⟨i, j⟩ hmem hne
      dsimp only
      have hij := (mem_intGrid m n (i, j)).mp hmem
      rw [htar1, habs1]
      have hzero : Complex.abs (phaseSum m (i : ℝ)) *
          Complex.abs (phaseSum n (j : ℝ)) = 0 := by
        by_cases hi : i = 0
        · have hj : j ≠ 0 := by
            intro hj0
            exact hne (by rw [hi, hj0])
          have hcol : phaseSum n ((j : ℕ) : ℝ) = 0 := by
            rw [show (((j : ℕ)) : ℝ) = (((j : ℕ) : ℤ) : ℝ) by push_cast; ring]
            apply phaseSum_int_not_dvd n hn0
            intro hdvd
            have hle := Int.le_of_dvd (by omega) hdvd
            omega
          rw [hcol, map_zero, mul_zero]
        · have hrow : phaseSum m ((i : ℕ) : ℝ) = 0 := by
            rw [show (((i : ℕ)) : ℝ) = (((i : ℕ) : ℤ) : ℝ) by push_cast; ring]
            apply phaseSum_int_not_dvd m hm0
            intro hdvd
            have hle := Int.le_of_dvd (by omega) hdvd
            omega
          rw [hrow, map_zero, zero_mul]
      rw [hzero]
      positivity
    have h1 : argmaxBy
        (fun p : ℕ × ℕ => Complex.abs (corrSurface f f (p.1 : ℝ) (p.2 : ℝ)))
        (intGrid m n) = some (0, 0) :=
      argmaxBy_eq_of_strict _ _ _ hm00 hint_strict
    have hz00 : ((0, 0) : ℤ × ℤ) ∈ (fineOffsets u).flatMap
        (fun a => (fineOffsets u).map (fun b => (a, b))) := by
      rw [mem_finePairs]
      constructor <;> (rw [mem_fineOffsets]; omega)
    have htar2 : Complex.abs (corrSurface f f
        ((((0 : ℕ)) : ℝ) + (((0 : ℤ)) : ℝ) / u)
        ((((0 : ℕ)) : ℝ) + (((0 : ℤ)) : ℝ) / u)) = (m : ℝ) * n := by
      norm_num [habs1, phaseSum_zero_arg, Complex.abs_natCast]
    have hrow0_lt : ∀ p : ℤ, p ∈ fineOffsets u → p ≠ 0 →
        Complex.abs (phaseSum m ((p : ℝ) / u)) < (m : ℝ) := by
      intro p hpmem2 hpne
      have hc0 : ((p : ℤ) : ℝ) / u ≠ 0 :=
        div_ne_zero (Int.cast_ne_zero.mpr hpne) hu0
      have hbound : |((p : ℤ) : ℝ)| ≤ 2 * u := by
        rw [← Int.cast_abs]
        have h4 : |p| ≤ 2 * (u : ℤ) := by
          rw [mem_fineOffsets] at hpmem2
          rw [abs_le]
          omega
        exact_mod_cast h4
      have hum : (u : ℝ) * 5 ≤ (u : ℝ) * m := by
        apply mul_le_mul_of_nonneg_left _ (le_of_lt hur)
        exact_mod_cast hm
      have hfrac : |(((p : ℤ) : ℝ) / u) / m| < 1 := by
        rw [abs_div, abs_div, abs_of_pos hur, abs_of_pos hmr]
        rw [div_div, div_lt_one (by positivity)]
        linarith [hbound, hum, hur]
      exact abs_phaseSum_lt m (by omega) _
        (ePhase_frac_ne_one m (by omega) _ hc0 hfrac)
    have hcol0_lt : ∀ q : ℤ, q ∈ fineOffsets u → q ≠ 0 →
        Complex.abs (phaseSum n ((q : ℝ) / u)) < (n : ℝ) := by
      intro q hqmem2 hqne
      have hc0 : ((q : ℤ) : ℝ) / u ≠ 0 :=
        div_ne_zero (Int.cast_ne_zero.mpr hqne) hu0
      have hbound : |((q : ℤ) : ℝ)| ≤ 2 * u := by
        rw [← Int.cast_abs]
        have h4 : |q| ≤ 2 * (u : ℤ) := by
          rw [mem_fineOffsets] at hqmem2
          rw [abs_le]
          omega
        exact_mod_cast h4
      have hum : (u : ℝ) * 5 ≤ (u : ℝ) * n := by
        apply mul_le_mul_of_nonneg_left _ (le_of_lt hur)
        exact_mod_cast hn
      have hfrac : |(((q : ℤ) : ℝ) / u) / n| < 1 := by
        rw [abs_div, abs_div, abs_of_pos hur, abs_of_pos hnr]
        rw [div_div, div_lt_one (by positivity)]
        linarith [hbound, hum, hur]
      exact abs_phaseSum_lt n (by omega) _
        (ePhase_frac_ne_one n (by omega) _ hc0 hfrac)
    have hfine_strict : ∀ z ∈ (fineOffsets u).flatMap
        (fun a => (fineOffsets u).map (fun b => (a, b))),
        z ≠ ((0, 0) : ℤ × ℤ) →
        Complex.abs (corrSurface f f ((((0 : ℕ)) : ℝ) + (z.1 : ℝ) / u)
          ((((0 : ℕ)) : ℝ) + (z.2 : ℝ) / u)) <
        Complex.abs (corrSurface f f
          ((((0 : ℕ)) : ℝ) + ((((0, 0) : ℤ × ℤ).1 : ℤ) : ℝ) / u)
          ((((0 : ℕ)) : ℝ) + ((((0, 0) : ℤ × ℤ).2 : ℤ) : ℝ) / u)) := by
      rintro ⟨p, q⟩ hzmem hzne
      dsimp only
      have hpq := (mem_finePairs u p q).mp hzmem
      rw [htar2, habs1]
      rw [show (((0 : ℕ)) : ℝ) + (p : ℝ) / u = (p : ℝ) / u by norm_num,
        show (((0 : ℕ)) : ℝ) + (q : ℝ) / u = (q : ℝ) / u by norm_num]
      by_cases hp : p = 0
      · have hq : q ≠ 0 := by
          intro hq0
          exact hzne (by rw [hp, hq0])
        rw [hp]
        norm_num [phaseSum_zero_arg, Complex.abs_natCast]
        exact mul_lt_mul_of_pos_left (hcol0_lt q hpq.2 hq) hmr
      · exact mul_lt_mul_of_bounds (Complex.abs.nonneg _)
          (hrow0_lt p hpq.1 hp) (Complex.abs.nonneg _)
          (abs_phaseSum_le n _) hnr
    have h2 : argmaxBy
        (fun q : ℤ × ℤ => Complex.abs (corrSurface f f
          ((((0 : ℕ)) : ℝ) + (q.1 : ℝ) / (u : ℝ))
          ((((0 : ℕ)) : ℝ) + (q.2 : ℝ) / (u : ℝ))))
        ((fineOffsets u).flatMap
          (fun a => (fineOffsets u).map (fun b => (a, b))))
        = some (0, 0) :=
      argmaxBy_eq_of_strict _ _ _ hz00 hfine_strict
    have hmn1 : ((m : ℝ) * n) / ((m : ℝ) * n) = 1 := div_self (by positivity)
    rw [multicorrPhase, h1]
    simp only [h2]
    rw [htar2, hmn1]
    norm_num
  · -- shifted copy: the displacement on the 1/u grid is recovered exactly
    intro a0 b0
    have har : ((a0 : ℝ) / u) * u = (a0 : ℝ) := by
      field_simp
    have hbc : ((b0 : ℝ) / u) * u = (b0 : ℝ) := by
      field_simp
    exact multicorrPhase_product_engine hm hn u hu f _ _ _ a0 b0 har hbc
      (corrSurface_shift hm0 hn0 f ((a0 : ℝ) / u) ((b0 : ℝ) / u) hf)

/-- Witness for the Multicorr contract: the 5×5 delta image has full
spectral support; auto-correlation returns ((0,0),1) exactly, and
correlating with the copy shifted by (2.3, −1.7) pixels (23/10, −17/10 on
the upsample-10 grid) recovers that shift with confidence 1. -/
theorem multicorrPhase_contract_witness :
    (∀ (k : Fin 5) (l : Fin 5), dft2 (deltaImage 5 5) k l ≠ 0) ∧
    multicorrPhase (deltaImage 5 5) (deltaImage 5 5) 10 = ((0, 0), 1) ∧
    (∃ tr tc : ℤ,
      (multicorrPhase (deltaImage 5 5) (fourierShift (deltaImage 5 5)
        (((23 : ℤ) : ℝ) / ((10 : ℕ) : ℝ)) (((-17 : ℤ) : ℝ) / ((10 : ℕ) : ℝ)))
        10).1 =
        (((23 : ℤ) : ℝ) / ((10 : ℕ) : ℝ) + ((5 : ℕ) : ℝ) * tr,
         ((-17 : ℤ) : ℝ) / ((10 : ℕ) : ℝ) + ((5 : ℕ) : ℝ) * tc) ∧
      (multicorrPhase (deltaImage 5 5) (fourierShift (deltaImage 5 5)
        (((23 : ℤ) : ℝ) / ((10 : ℕ) : ℝ)) (((-17 : ℤ) : ℝ) / ((10 : ℕ) : ℝ)))
        10).2 = 1) := by
  have hf : ∀ (k : Fin 5) (l : Fin 5), dft2 (deltaImage 5 5) k l ≠ 0 := by
    intro k l
    rw [dft2_deltaImage 5 5 (by decide) (by decide) k l]
    exact one_ne_zero
  have h := multicorrPhase_contract 5 5 10 (by decide) (by decide) (by decide)
    (deltaImage 5 5) hf
  exact ⟨hf, h.1, h.2 23 (-17)⟩
